import Mathlib

/-! HID decoders: report-descriptor parser and wide-character string decoder

A shallow embedding of `parseReportDescriptor` (src/hid_usage_linux.go) and of
`wchar2ToString` / `wchar4ToString` (src/gowchar.go), followed by theorems about
them.

Conventions of the embedding:
* a Go `byte` is a `Fin 256`; `uint16` and `uint64` values are `Nat` with an
  explicit `% 2 ^ 16` resp. `% 2 ^ 64` where the source converts or may wrap;
* a Go slice is a `List`; an index or re-slice outside the slice panics in Go and
  is `none` here;
* a `rune` and a `wchar_t` unit are `Int`;
* a Go `string` is a Lean `String` (a sequence of Unicode scalar values).
-/

namespace Hid

/-! ## Report descriptor parser (src/hid_usage_linux.go) -/

/-- Re-slicing `b[n:]`: Go panics (here `none`) when `n` exceeds `len(b)`. -/
def sliceFrom (b : List (Fin 256)) (n : Nat) : Option (List (Fin 256)) :=
  if n ≤ b.length then some (b.drop n) else none

/-- The loop `for i := 0; i < size; i++ { v += uint64(b[i]) << (8 * uint(i)) }` of
`parseReportDescriptor`. The first argument counts the iterations still to run
(`size - i`); `b[i]` outside the slice panics (here `none`). -/
def readValue (b : List (Fin 256)) : Nat → Nat → Nat → Option Nat
  | 0, _, v => some v
  | n + 1, i, v =>
    match b[i]? with
    | none => none
    | some x => readValue b n (i + 1) ((v + (x.val <<< (8 * i)) % 2 ^ 64) % 2 ^ 64)

/-- The loop `for len(b) > 0 { ... }` of `parseReportDescriptor`, one iteration per
unit of fuel, with the loop variables `b`, `usagePage`, `usage` passed explicitly.
`none` is a Go panic (index out of range) or exhausted fuel. -/
def parseLoop : Nat → List (Fin 256) → Nat → Nat → Option (Nat × Nat)
  | 0, _, _, _ => none
  | fuel + 1, b, usagePage, usage =>
    if 0 < b.length then
      match b[0]? with
      | none => none
      | some b0 =>
        -- read item size, type, and tag
        let size := b0.val &&& 0x03
        let size := if size = 3 then 4 else size
        let typ := (b0.val >>> 2) &&& 0x03
        let tag := (b0.val >>> 4) &&& 0x0f
        match sliceFrom b 1 with
        | none => none
        | some b =>
          if b.length < size then
            some (usagePage, usage)
          else
            -- read item value
            match readValue b size 0 0 with
            | none => none
            | some v =>
              match sliceFrom b size with
              | none => none
              | some b =>
                -- the `switch`: the first case that holds is taken, if any
                let st : Nat × Nat :=
                  if typ = 1 ∧ tag = 0 ∧ usagePage = 0 then (v % 2 ^ 16, usage)
                  else if typ = 2 ∧ tag = 0 ∧ usage = 0 then (usagePage, v % 2 ^ 16)
                  else (usagePage, usage)
                if 0 < st.1 ∧ 0 < st.2 then
                  some (st.1, st.2)
                else
                  parseLoop fuel b st.1 st.2
    else
      some (usagePage, usage)

/-- The function `parseReportDescriptor`: both results start at 0. Every iteration
of the loop removes at least the prefix byte, so `len(b) + 1` units of fuel are
enough for any input. -/
def parseReportDescriptor (b : List (Fin 256)) : Option (Nat × Nat) :=
  parseLoop (b.length + 1) b 0 0

/-! ### Reference reading of a descriptor: short items and a fold over them -/

/-- Data length of a short item by its size code: 0, 1, 2, 3 give 0, 1, 2, 4. -/
def itemDataLength (code : Nat) : Nat :=
  match code with
  | 0 => 0
  | 1 => 1
  | 2 => 2
  | _ => 4

/-- A complete short item: type (bits 2-3 of the prefix), tag (bits 4-7) and the
value of its data bytes. -/
structure ShortItem where
  typ : Nat
  tag : Nat
  value : Nat
  deriving DecidableEq, Repr

/-- The bytes read as a little-endian unsigned integer (byte 0 least significant). -/
def littleEndian : List (Fin 256) → Nat
  | [] => 0
  | x :: xs => x.val + 256 * littleEndian xs

/-- Front-to-back decoding into complete short items, stopping at the end of the
bytes or at the first item with fewer data bytes than its length. The first
argument bounds the number of items; `decodeItems` passes the number of bytes. -/
def decodeItemsAux : Nat → List (Fin 256) → List ShortItem
  | 0, _ => []
  | _ + 1, [] => []
  | n + 1, p :: rest =>
    let len := itemDataLength (p.val % 4)
    if rest.length < len then []
    else
      { typ := p.val / 4 % 4, tag := p.val / 16 % 16, value := littleEndian (rest.take len) }
        :: decodeItemsAux n (rest.drop len)

/-- The complete short items of a descriptor, in order. -/
def decodeItems (b : List (Fin 256)) : List ShortItem :=
  decodeItemsAux b.length b

/-- One step of the reference fold on the state `(usagePage, usage)`: a type-1/tag-0
item sets `usagePage` only if it is 0, a type-2/tag-0 item sets `usage` only if it
is 0, every other item leaves the state unchanged. -/
def stepItem (st : Nat × Nat) (it : ShortItem) : Nat × Nat :=
  if it.typ = 1 ∧ it.tag = 0 then
    if st.1 = 0 then (it.value % 2 ^ 16, st.2) else st
  else if it.typ = 2 ∧ it.tag = 0 then
    if st.2 = 0 then (st.1, it.value % 2 ^ 16) else st
  else st

/-- A complete short item as a byte sequence: a prefix byte followed by exactly the
data bytes its size code demands. -/
def isCompleteItem : List (Fin 256) → Bool
  | [] => false
  | p :: d => d.length == itemDataLength (p.val % 4)

/-- A truncated item: a prefix byte followed by strictly fewer data bytes than its
size code demands. -/
def isTruncatedItem : List (Fin 256) → Bool
  | [] => false
  | p :: d => decide (d.length < itemDataLength (p.val % 4))

/-- The item the parser decodes at the front of `p :: rest`. -/
def frontItem (p : Fin 256) (rest : List (Fin 256)) : ShortItem :=
  { typ := p.val / 4 % 4, tag := p.val / 16 % 16,
    value := littleEndian (rest.take (itemDataLength (p.val % 4))) }

/-- The reference fold: all complete short items folded from `(0, 0)`, with no
early exit. -/
def referenceFold (b : List (Fin 256)) : Nat × Nat :=
  (decodeItems b).foldl stepItem (0, 0)

/-! ## Wide-character string decoder (src/gowchar.go) -/

/-- Go standard library, `utf16.IsSurrogate`: `0xd800 <= r && r < 0xe000`. -/
def isSurrogate (r : Int) : Bool :=
  decide (0xd800 ≤ r ∧ r < 0xe000)

/-- Go standard library, `utf8.ValidRune`: `0 <= r < 0xD800` or
`0xDFFF < r <= 0x10FFFF`. -/
def validRune (r : Int) : Bool :=
  if 0 ≤ r ∧ r < 0xD800 then true
  else if 0xDFFF < r ∧ r ≤ 0x10FFFF then true
  else false

/-- Go standard library, `utf16.DecodeRune`: for a high surrogate `r1` and a low
surrogate `r2` it is `(r1-0xd800)<<10 | (r2-0xdc00) + 0x10000` (Go parses this as
`((r1-0xd800)<<10 | (r2-0xdc00)) + 0x10000`), otherwise U+FFFD. Both differences
are non-negative in the first branch, so the bit operations are those of `Nat`. -/
def decodeRune (r1 r2 : Int) : Int :=
  if 0xd800 ≤ r1 ∧ r1 < 0xdc00 ∧ 0xdc00 ≤ r2 ∧ r2 < 0xe000 then
    ((((r1 - 0xd800).toNat <<< 10) ||| (r2 - 0xdc00).toNat) + 0x10000 : Nat)
  else 0xFFFD

/-- Go conversion `string(r)` of a rune: the one-character string of `r`, and
the string of U+FFFD when `r` is not a valid rune. -/
def runeToString (r : Int) : String :=
  if validRune r then String.singleton (Char.ofNat r.toNat)
  else String.singleton (Char.ofNat 0xFFFD)

/-- The two errors of the decoders, `fmt.Errorf("Invalid rune at position %v", p)`
and `fmt.Errorf("Invalid surrogate pair at position %v", p)`, by their position
argument. -/
inductive WcharError where
  | invalidRune (pos : Nat)
  | invalidSurrogatePair (pos : Nat)
  deriving DecidableEq, Repr

/-- The C helper `gowchar_get(arr, pos)`, `arr[pos]`, on a buffer holding the units
of the list: a read outside the buffer is undefined in C and `none` here. -/
def gowchar_get (s : List Int) (pos : Nat) : Option Int :=
  s[pos]?

/-- The loop of `wchar2ToString`, one iteration per unit of fuel, with the loop
variables `i` and `res` passed explicitly. The result is the returned pair
`(string, error)`; `none` is a read outside the buffer or exhausted fuel.
`i - 1` is evaluated after `i++`, so it does not go below zero. The conversions
`rune(ch)` and `C.int(i)` keep the value (units and indices fit 32 bits). -/
def wchar2Loop (s : List Int) : Nat → Nat → String → Option (String × Option WcharError)
  | 0, _, _ => none
  | fuel + 1, i, res =>
    match gowchar_get s i with
    | none => none
    | some ch =>
      if ch = 0 then
        some (res, none)
      else
        let r := ch
        let i := i + 1
        if !isSurrogate r then
          if !validRune r then
            some ("", some (WcharError.invalidRune i))
          else
            wchar2Loop s fuel i (res ++ runeToString r)
        else
          match gowchar_get s i with
          | none => none
          | some ch2 =>
            let r2 := ch2
            let r12 := decodeRune r r2
            if r12 = 0xFFFD then
              some ("", some (WcharError.invalidSurrogatePair (i - 1)))
            else
              wchar2Loop s fuel (i + 1) (res ++ runeToString r12)

/-- The function `wchar2ToString` on a buffer holding the units of `s`: `i` starts
at 0 and `res` empty. Every iteration that continues the loop increments `i`, and a
read at `len(s)` or beyond ends it, so `len(s) + 1` units of fuel are enough. -/
def wchar2ToString (s : List Int) : Option (String × Option WcharError) :=
  wchar2Loop s (s.length + 1) 0 ""

/-- The loop of `wchar4ToString`, one iteration per unit of fuel, with the loop
variables `i` and `res` passed explicitly; results as for `wchar2Loop`. -/
def wchar4Loop (s : List Int) : Nat → Nat → String → Option (String × Option WcharError)
  | 0, _, _ => none
  | fuel + 1, i, res =>
    match gowchar_get s i with
    | none => none
    | some ch =>
      if ch = 0 then
        some (res, none)
      else
        let r := ch
        if !validRune r then
          some ("", some (WcharError.invalidRune i))
        else
          wchar4Loop s fuel (i + 1) (res ++ runeToString r)

/-- The function `wchar4ToString` on a buffer holding the units of `s`; fuel as
for `wchar2ToString`. -/
def wchar4ToString (s : List Int) : Option (String × Option WcharError) :=
  wchar4Loop s (s.length + 1) 0 ""

/-! ### Reference UTF-16: encoder and well-formedness -/

/-- Reference UTF-16 encoding of one scalar value: itself below 0x10000, otherwise
the high/low surrogate pair of `c - 0x10000` (high ten bits on 0xD800, low ten bits
on 0xDC00). -/
def utf16EncodeChar (c : Char) : List Int :=
  if c.toNat < 0x10000 then [(c.toNat : Int)]
  else
    [((0xD800 + (c.toNat - 0x10000) / 0x400 : Nat) : Int),
     ((0xDC00 + (c.toNat - 0x10000) % 0x400 : Nat) : Int)]

/-- Reference UTF-16 encoding of a sequence of scalar values. -/
def utf16Encode : List Char → List Int
  | [] => []
  | c :: s => utf16EncodeChar c ++ utf16Encode s

/-- A high surrogate, 0xD800..0xDBFF. -/
def isHighSurrogate (u : Int) : Bool :=
  decide (0xD800 ≤ u ∧ u ≤ 0xDBFF)

/-- A low surrogate, 0xDC00..0xDFFF. -/
def isLowSurrogate (u : Int) : Bool :=
  decide (0xDC00 ≤ u ∧ u ≤ 0xDFFF)

/-- Well-formed UTF-16, scanning left to right: every high surrogate is immediately
followed by a low surrogate, and no low surrogate occurs elsewhere. -/
def wellFormedUtf16 : List Int → Bool
  | [] => true
  | u :: rest =>
    if isHighSurrogate u then
      match rest with
      | [] => false
      | l :: rest2 => isLowSurrogate l && wellFormedUtf16 rest2
    else if isLowSurrogate u then false
    else wellFormedUtf16 rest

/-! ## The dispatch on the wide-character width (src/gowchar.go) -/

/-- What a call of `wcharTToString` does: it returns the pair `(string, error)`, or it
panics with `"Invalid sizeof(wchar_t) = %v"` (by the width formatted), or the decoder
it called read outside the buffer. -/
inductive WcharTResult where
  | returned (res : String) (err : Option WcharError)
  | panicked (sizeofWcharT : Nat)
  | outside
  deriving DecidableEq, Repr

/-- The result of a decoder as a result of `wcharTToString`, which returns it as it
is. -/
def WcharTResult.ofDecoder : Option (String × Option WcharError) → WcharTResult
  | none => WcharTResult.outside
  | some (res, err) => WcharTResult.returned res err

/-- The function `wcharTToString`. The package variable `_SIZEOF_WCHAR_T` is the first
argument; the pointer `s` is `none` when nil and otherwise the buffer it points to. -/
def wcharTToString (sizeofWcharT : Nat) (s : Option (List Int)) : WcharTResult :=
  match s with
  | none => WcharTResult.returned "" none
  | some buf =>
    if sizeofWcharT = 2 then WcharTResult.ofDecoder (wchar2ToString buf)
    else if sizeofWcharT = 4 then WcharTResult.ofDecoder (wchar4ToString buf)
    else WcharTResult.panicked sizeofWcharT

/-! ## The decoder loops with their reads recorded -/

/-- The loop of `wchar2ToString` as in `wchar2Loop`, which in addition appends to
`reads` the position of every call of `gowchar_get`, in order, and returns the
positions with the result. -/
def wchar2LoopTraced (s : List Int) :
    Nat → Nat → String → List Nat → Option (String × Option WcharError) × List Nat
  | 0, _, _, reads => (none, reads)
  | fuel + 1, i, res, reads =>
    let reads := reads ++ [i]
    match gowchar_get s i with
    | none => (none, reads)
    | some ch =>
      if ch = 0 then
        (some (res, none), reads)
      else
        let r := ch
        let i := i + 1
        if !isSurrogate r then
          if !validRune r then
            (some ("", some (WcharError.invalidRune i)), reads)
          else
            wchar2LoopTraced s fuel i (res ++ runeToString r) reads
        else
          let reads := reads ++ [i]
          match gowchar_get s i with
          | none => (none, reads)
          | some ch2 =>
            let r2 := ch2
            let r12 := decodeRune r r2
            if r12 = 0xFFFD then
              (some ("", some (WcharError.invalidSurrogatePair (i - 1))), reads)
            else
              wchar2LoopTraced s fuel (i + 1) (res ++ runeToString r12) reads

/-- The function `wchar2ToString` with the positions it reads. -/
def wchar2ToStringTraced (s : List Int) : Option (String × Option WcharError) × List Nat :=
  wchar2LoopTraced s (s.length + 1) 0 "" []

/-- The loop of `wchar4ToString` as in `wchar4Loop`, recording the position of every
call of `gowchar_get` as `wchar2LoopTraced` does. -/
def wchar4LoopTraced (s : List Int) :
    Nat → Nat → String → List Nat → Option (String × Option WcharError) × List Nat
  | 0, _, _, reads => (none, reads)
  | fuel + 1, i, res, reads =>
    let reads := reads ++ [i]
    match gowchar_get s i with
    | none => (none, reads)
    | some ch =>
      if ch = 0 then
        (some (res, none), reads)
      else
        let r := ch
        if !validRune r then
          (some ("", some (WcharError.invalidRune i)), reads)
        else
          wchar4LoopTraced s fuel (i + 1) (res ++ runeToString r) reads

/-- The function `wchar4ToString` with the positions it reads. -/
def wchar4ToStringTraced (s : List Int) : Option (String × Option WcharError) × List Nat :=
  wchar4LoopTraced s (s.length + 1) 0 "" []

/-! ## Device control requests and usage lookup (src/hid_usage_linux.go) -/

def typeBits : Nat := 8
def numberBits : Nat := 8
def sizeBits : Nat := 14
def directionRead : Nat := 2

def numberShift : Nat := 0
def typeShift : Nat := numberShift + numberBits
def sizeShift : Nat := typeShift + typeBits
def directionShift : Nat := sizeShift + sizeBits

/-- The function `ioc` on `uintptr` values, taken as 64 bits wide: each shift keeps
the low 64 bits. -/
def ioc (dir t nr size : Nat) : Nat :=
  ((dir <<< directionShift) % 2 ^ 64) ||| ((t <<< typeShift) % 2 ^ 64) |||
    ((nr <<< numberShift) % 2 ^ 64) ||| ((size <<< sizeShift) % 2 ^ 64)

/-- The function `ioR`. -/
def ioR (t nr size : Nat) : Nat :=
  ioc directionRead t nr size

/-- The request `ioctlHIDIOCGRDESCSIZE = ioR('H', 0x01, C.sizeof_int)`; the C constant
`sizeof(int)` is the argument. -/
def ioctlHIDIOCGRDESCSIZE (sizeofInt : Nat) : Nat :=
  ioR (Char.toNat 'H') 0x01 sizeofInt

/-- Modelled from the spec: the declaration of `DeviceInfo` is not among the sources;
these are the fields of the literal in `getDeviceInfo` (src/hid_hidapi.go), of which
`getDeviceUsageInfo` reads `Path` and writes `UsagePage` and `Usage`, the device's
usage pair. -/
structure DeviceInfo where
  Path : String
  VendorID : Nat
  ProductID : Nat
  VersionNumber : Nat
  Manufacturer : String
  Product : String
  UsagePage : Nat
  Usage : Nat
  InputReportLength : Nat
  OutputReportLength : Nat
  deriving DecidableEq, Repr

/-- The errors `getDeviceUsageInfo` returns: the error of `os.OpenFile` and the
`syscall.Errno` of `ioctl`, each by its errno. -/
inductive OsError where
  | openError (errno : Nat)
  | ioctlError (errno : Nat)
  deriving DecidableEq, Repr

/-- Go standard library, `os.IsPermission` on the error of a failed open: the errno
is `EACCES` (13) or `EPERM` (1). -/
def isPermission (errno : Nat) : Bool :=
  errno == 13 || errno == 1

/-- The answers of the operating system to the three calls of `getDeviceUsageInfo`:
the errno of `os.OpenFile` (0: the file was opened), the errno `ep` of each `ioctl`
(0: no error), the `descSize` the first `ioctl` stored and the bytes of
`rawDescriptor.value` after the second. -/
structure HidrawAnswers where
  openErrno : Nat
  sizeErrno : Nat
  descSize : Int
  descErrno : Nat
  value : List (Fin 256)

/-- The call `C.GoBytes(ptr, n)` on the array `value`: its first `n` bytes; a negative
`n` panics and an `n` beyond the array reads outside it (here `none`). -/
def goBytes (value : List (Fin 256)) (n : Int) : Option (List (Fin 256)) :=
  if 0 ≤ n ∧ n.toNat ≤ value.length then some (value.take n.toNat) else none

/-- The function `getDeviceUsageInfo` on the record `info`, with the answers of the
operating system as an input. The result is the record after the call with the
returned error (`none` for `nil`); `none` is a panic. -/
def getDeviceUsageInfo (info : DeviceInfo) (os : HidrawAnswers) :
    Option (DeviceInfo × Option OsError) :=
  if os.openErrno ≠ 0 then
    if isPermission os.openErrno then
      some ({ info with Usage := 0, UsagePage := 0 }, none)
    else
      some (info, some (OsError.openError os.openErrno))
  else if os.sizeErrno ≠ 0 then
    some (info, some (OsError.ioctlError os.sizeErrno))
  else if os.descErrno ≠ 0 then
    some (info, some (OsError.ioctlError os.descErrno))
  else
    match goBytes os.value os.descSize with
    | none => none
    | some bytes =>
      match parseReportDescriptor bytes with
      | none => none
      | some (usagePage, usage) =>
        some ({ info with UsagePage := usagePage, Usage := usage }, none)

/-- A device record with a usage pair already set, for concrete instances. -/
def sampleInfo : DeviceInfo :=
  { Path := "/dev/hidraw0", VendorID := 0x046d, ProductID := 0xc52b, VersionNumber := 0x1211,
    Manufacturer := "Logitech", Product := "USB Receiver", UsagePage := 7, Usage := 9,
    InputReportLength := 64, OutputReportLength := 64 }

/-! ## Theorems: report descriptor parser -/

theorem size_code_eq (p : Fin 256) :
    (if p.val &&& 0x03 = 3 then 4 else p.val &&& 0x03) = itemDataLength (p.val % 4) := by
  have h : p.val &&& 0x03 = p.val % 4 := Nat.and_pow_two_sub_one_eq_mod p.val 2
  rw [h]
  have h4 : p.val % 4 < 4 := Nat.mod_lt _ (by decide)
  generalize p.val % 4 = c at h4
  interval_cases c <;> rfl

theorem typ_bits_eq (p : Fin 256) : (p.val >>> 2) &&& 0x03 = p.val / 4 % 4 := by
  rw [Nat.shiftRight_eq_div_pow]
  exact Nat.and_pow_two_sub_one_eq_mod _ 2

theorem tag_bits_eq (p : Fin 256) : (p.val >>> 4) &&& 0x0f = p.val / 16 % 16 := by
  rw [Nat.shiftRight_eq_div_pow]
  exact Nat.and_pow_two_sub_one_eq_mod _ 4

theorem sliceFrom_of_le (b : List (Fin 256)) (n : Nat) (h : n ≤ b.length) :
    sliceFrom b n = some (b.drop n) := by
  simp [sliceFrom, h]

/-- The value loop never leaves the slice when `i + n` fits, and computes the
little-endian value of the `n` bytes from index `i`, modulo `2 ^ 64`. -/
theorem readValue_spec (b : List (Fin 256)) :
    ∀ (n i v : Nat), i + n ≤ b.length →
      ∃ w, readValue b n i v = some w ∧
        w % 2 ^ 64 = (v + 2 ^ (8 * i) * littleEndian ((b.drop i).take n)) % 2 ^ 64 := by
  intro n
  induction n with
  | zero =>
    intro i v _
    exact ⟨v, rfl, by simp [littleEndian]⟩
  | succ n ih =>
    intro i v h
    have hi : i < b.length := by omega
    have hx : b[i]? = some b[i] := List.getElem?_eq_getElem hi
    obtain ⟨w, hw, hmod⟩ := ih (i + 1) ((v + (b[i].val <<< (8 * i)) % 2 ^ 64) % 2 ^ 64) (by omega)
    refine ⟨w, ?_, ?_⟩
    · simp only [readValue, hx]
      exact hw
    · rw [hmod]
      have hd : b.drop i = b[i] :: b.drop (i + 1) := List.drop_eq_getElem_cons hi
      rw [hd, List.take_succ_cons, littleEndian, Nat.shiftLeft_eq]
      have hp : 2 ^ (8 * (i + 1)) = 2 ^ (8 * i) * 256 := by
        rw [Nat.mul_add, Nat.pow_add]
      rw [hp]
      generalize littleEndian (List.take n (List.drop (i + 1) b)) = L
      generalize 2 ^ (8 * i) = P
      have e1 : P * (b[i].val + 256 * L) = b[i].val * P + P * 256 * L := by ring
      rw [e1]
      generalize b[i].val * P = A
      generalize P * 256 * L = C
      omega

theorem readValue_low16 (b : List (Fin 256)) (n : Nat) (h : n ≤ b.length) :
    ∃ w, readValue b n 0 0 = some w ∧ w % 2 ^ 16 = littleEndian (b.take n) % 2 ^ 16 := by
  obtain ⟨w, hw, hmod⟩ := readValue_spec b n 0 0 (by omega)
  refine ⟨w, hw, ?_⟩
  simp only [Nat.mul_zero, Nat.pow_zero, Nat.one_mul, Nat.zero_add, List.drop_zero] at hmod
  generalize littleEndian (List.take n b) = L at hmod ⊢
  omega

/-- One iteration of the parser loop on a non-empty slice, in terms of the
reference step. -/
theorem parseLoop_cons (fuel : Nat) (p : Fin 256) (rest : List (Fin 256)) (pg us : Nat) :
    parseLoop (fuel + 1) (p :: rest) pg us =
      if rest.length < itemDataLength (p.val % 4) then some (pg, us)
      else if 0 < (stepItem (pg, us) (frontItem p rest)).1 ∧
          0 < (stepItem (pg, us) (frontItem p rest)).2 then
        some (stepItem (pg, us) (frontItem p rest))
      else
        parseLoop fuel (rest.drop (itemDataLength (p.val % 4)))
          (stepItem (pg, us) (frontItem p rest)).1 (stepItem (pg, us) (frontItem p rest)).2 := by
  rw [parseLoop]
  simp only [List.length_cons, Nat.zero_lt_succ, if_true, List.getElem?_cons_zero]
  rw [sliceFrom_of_le (p :: rest) 1 (by simp)]
  simp only [List.drop_succ_cons, List.drop_zero, size_code_eq, typ_bits_eq, tag_bits_eq]
  by_cases hlen : rest.length < itemDataLength (p.val % 4)
  · simp [hlen]
  · simp only [hlen, if_false]
    obtain ⟨w, hw, hmod⟩ := readValue_low16 rest (itemDataLength (p.val % 4)) (by omega)
    rw [hw]
    simp only []
    rw [sliceFrom_of_le rest _ (by omega)]
    simp only [hmod]
    have hst : (if p.val / 4 % 4 = 1 ∧ p.val / 16 % 16 = 0 ∧ pg = 0 then
          (littleEndian (rest.take (itemDataLength (p.val % 4))) % 2 ^ 16, us)
        else if p.val / 4 % 4 = 2 ∧ p.val / 16 % 16 = 0 ∧ us = 0 then
          (pg, littleEndian (rest.take (itemDataLength (p.val % 4))) % 2 ^ 16)
        else (pg, us)) = stepItem (pg, us) (frontItem p rest) := by
      simp only [stepItem, frontItem]
      by_cases h1 : p.val / 4 % 4 = 1 ∧ p.val / 16 % 16 = 0
      · by_cases h2 : pg = 0
        · simp [h1, h2]
        · simp [h1, h2]
      · by_cases h3 : p.val / 4 % 4 = 2 ∧ p.val / 16 % 16 = 0
        · by_cases h4 : us = 0
          · have : ¬ (p.val / 4 % 4 = 1) := by omega
            simp [h3, h4]
          · have : ¬ (p.val / 4 % 4 = 1) := by omega
            simp [h3, h4]
        · have h1' : ¬ (p.val / 4 % 4 = 1 ∧ p.val / 16 % 16 = 0 ∧ pg = 0) :=
            fun h => h1 ⟨h.1, h.2.1⟩
          have h3' : ¬ (p.val / 4 % 4 = 2 ∧ p.val / 16 % 16 = 0 ∧ us = 0) :=
            fun h => h3 ⟨h.1, h.2.1⟩
          simp only [h1, h3, h1', h3', if_false]
    rw [hst]

theorem decodeItemsAux_cons (n : Nat) (p : Fin 256) (rest : List (Fin 256)) :
    decodeItemsAux (n + 1) (p :: rest) =
      if rest.length < itemDataLength (p.val % 4) then []
      else frontItem p rest :: decodeItemsAux n (rest.drop (itemDataLength (p.val % 4))) := by
  simp only [decodeItemsAux, frontItem]

/-- The bound of `decodeItemsAux` is immaterial once it reaches the number of bytes. -/
theorem decodeItemsAux_fuel :
    ∀ (n m : Nat) (b : List (Fin 256)), b.length ≤ n → b.length ≤ m →
      decodeItemsAux n b = decodeItemsAux m b := by
  intro n
  induction n with
  | zero =>
    intro m b hn _
    have hb : b = [] := List.length_eq_zero.mp (by omega)
    subst hb
    cases m <;> rfl
  | succ n ih =>
    intro m b hn hm
    cases b with
    | nil => cases m <;> rfl
    | cons p rest =>
      cases m with
      | zero => simp at hm
      | succ m =>
        simp only [List.length_cons] at hn hm
        rw [decodeItemsAux_cons, decodeItemsAux_cons]
        by_cases hlen : rest.length < itemDataLength (p.val % 4)
        · simp [hlen]
        · simp only [hlen, if_false]
          rw [ih m _ (by simp; omega) (by simp; omega)]

theorem decodeItems_nil : decodeItems [] = [] := rfl

theorem decodeItems_cons (p : Fin 256) (rest : List (Fin 256)) :
    decodeItems (p :: rest) =
      if rest.length < itemDataLength (p.val % 4) then []
      else frontItem p rest :: decodeItems (rest.drop (itemDataLength (p.val % 4))) := by
  unfold decodeItems
  rw [List.length_cons, decodeItemsAux_cons]
  by_cases hlen : rest.length < itemDataLength (p.val % 4)
  · simp [hlen]
  · simp only [hlen, if_false]
    rw [decodeItemsAux_fuel rest.length (rest.drop (itemDataLength (p.val % 4))).length _
      (by simp) (le_refl _)]

theorem stepItem_resolved (pg us : Nat) (it : ShortItem) (hp : 0 < pg) (hu : 0 < us) :
    stepItem (pg, us) it = (pg, us) := by
  have hp0 : pg ≠ 0 := by omega
  have hu0 : us ≠ 0 := by omega
  simp only [stepItem, hp0, hu0, if_false, ite_self]

/-- Once both fields are non-zero the reference fold no longer changes them. -/
theorem foldl_stepItem_resolved (pg us : Nat) (hp : 0 < pg) (hu : 0 < us) (l : List ShortItem) :
    l.foldl stepItem (pg, us) = (pg, us) := by
  induction l with
  | nil => rfl
  | cons it l ih => rw [List.foldl_cons, stepItem_resolved pg us it hp hu, ih]

/-- The parser loop, given more fuel than bytes, returns the reference fold of the
complete items of the slice from the current state. -/
theorem parseLoop_eq_fold :
    ∀ (fuel : Nat) (b : List (Fin 256)) (pg us : Nat), b.length < fuel →
      parseLoop fuel b pg us = some ((decodeItems b).foldl stepItem (pg, us)) := by
  intro fuel
  induction fuel with
  | zero => intro b pg us h; omega
  | succ fuel ih =>
    intro b pg us h
    cases b with
    | nil => simp [parseLoop, decodeItems_nil]
    | cons p rest =>
      simp only [List.length_cons] at h
      rw [parseLoop_cons, decodeItems_cons]
      by_cases hlen : rest.length < itemDataLength (p.val % 4)
      · simp [hlen]
      · simp only [hlen, if_false, List.foldl_cons]
        by_cases hres : 0 < (stepItem (pg, us) (frontItem p rest)).1 ∧
            0 < (stepItem (pg, us) (frontItem p rest)).2
        · rw [if_pos hres]
          have := foldl_stepItem_resolved _ _ hres.1 hres.2
            (decodeItems (rest.drop (itemDataLength (p.val % 4))))
          rw [this]
        · rw [if_neg hres]
          rw [ih _ _ _ (by simp; omega)]

theorem parseReportDescriptor_eq (b : List (Fin 256)) :
    parseReportDescriptor b = some (referenceFold b) :=
  parseLoop_eq_fold (b.length + 1) b 0 0 (by omega)

/-- The complete items of a descriptor stay, in order, at the front of the complete
items of any extension of it. -/
theorem decodeItems_append_extends :
    ∀ (n : Nat) (b : List (Fin 256)), b.length ≤ n → ∀ s : List (Fin 256),
      ∃ more, decodeItems (b ++ s) = decodeItems b ++ more := by
  intro n
  induction n with
  | zero =>
    intro b hb s
    have hnil : b = [] := List.length_eq_zero.mp (by omega)
    subst hnil
    exact ⟨decodeItems s, by simp [decodeItems_nil]⟩
  | succ n ih =>
    intro b hb s
    cases b with
    | nil => exact ⟨decodeItems s, by simp [decodeItems_nil]⟩
    | cons p rest =>
      simp only [List.length_cons] at hb
      rw [List.cons_append, decodeItems_cons, decodeItems_cons]
      by_cases hlen : rest.length < itemDataLength (p.val % 4)
      · rw [if_pos hlen]
        exact ⟨_, (List.nil_append _).symm⟩
      · have hle : itemDataLength (p.val % 4) ≤ rest.length := by omega
        have hlen2 : ¬ (rest ++ s).length < itemDataLength (p.val % 4) := by
          rw [List.length_append]; omega
        rw [if_neg hlen, if_neg hlen2]
        have hfront : frontItem p (rest ++ s) = frontItem p rest := by
          simp only [frontItem, List.take_append_of_le_length hle]
        rw [hfront, List.drop_append_of_le_length hle]
        obtain ⟨more, hmore⟩ := ih (rest.drop (itemDataLength (p.val % 4)))
          (by rw [List.length_drop]; omega) s
        exact ⟨more, by rw [hmore, List.cons_append]⟩

/-- Decoding a complete item followed by more bytes: the item, then the rest. -/
theorem decodeItems_complete_append (it s : List (Fin 256)) (h : isCompleteItem it = true) :
    ∃ x, decodeItems (it ++ s) = x :: decodeItems s := by
  cases it with
  | nil => simp [isCompleteItem] at h
  | cons p d =>
    simp only [isCompleteItem, beq_iff_eq] at h
    rw [List.cons_append, decodeItems_cons]
    have hlen : ¬ (d ++ s).length < itemDataLength (p.val % 4) := by
      rw [List.length_append]; omega
    rw [if_neg hlen]
    refine ⟨frontItem p (d ++ s), ?_⟩
    rw [← h, List.drop_left]

theorem decodeItems_flatten_append (items : List (List (Fin 256)))
    (h : ∀ it ∈ items, isCompleteItem it = true) (s : List (Fin 256)) :
    ∃ xs, decodeItems items.flatten = xs ∧ decodeItems (items.flatten ++ s) = xs ++ decodeItems s := by
  induction items with
  | nil => exact ⟨[], rfl, by simp⟩
  | cons it items ih =>
    obtain ⟨xs, h1, h2⟩ := ih (fun x hx => h x (List.mem_cons_of_mem _ hx))
    have hit := h it (List.mem_cons_self _ _)
    obtain ⟨x, hx⟩ := decodeItems_complete_append it (items.flatten ++ s) hit
    obtain ⟨y, hy⟩ := decodeItems_complete_append it items.flatten hit
    have hxy : x = y := by
      cases it with
      | nil => simp [isCompleteItem] at hit
      | cons p d =>
        simp only [isCompleteItem, beq_iff_eq] at hit
        have e1 := hx
        have e2 := hy
        rw [List.cons_append, decodeItems_cons] at e1 e2
        have hl1 : ¬ (d ++ (items.flatten ++ s)).length < itemDataLength (p.val % 4) := by
          rw [List.length_append]; omega
        have hl2 : ¬ (d ++ items.flatten).length < itemDataLength (p.val % 4) := by
          rw [List.length_append]; omega
        rw [if_neg hl1] at e1
        rw [if_neg hl2] at e2
        have f1 := (List.cons.inj e1).1
        have f2 := (List.cons.inj e2).1
        rw [← f1, ← f2]
        simp only [frontItem, ← hit, List.take_left]
    refine ⟨y :: xs, ?_, ?_⟩
    · rw [List.flatten_cons, hy, h1]
    · rw [List.flatten_cons, List.append_assoc, hx, h2, hxy, List.cons_append]

theorem decodeItems_truncated (t : List (Fin 256)) (h : isTruncatedItem t = true) :
    decodeItems t = [] := by
  cases t with
  | nil => rfl
  | cons p d =>
    simp only [isTruncatedItem, decide_eq_true_eq] at h
    rw [decodeItems_cons, if_pos h]

theorem stepItem_fst_ne (pg us : Nat) (it : ShortItem) :
    (stepItem (pg, us) it).1 ≠ 0 ↔
      pg ≠ 0 ∨ (it.typ = 1 ∧ it.tag = 0 ∧ it.value % 2 ^ 16 ≠ 0) := by
  unfold stepItem
  by_cases h1 : it.typ = 1 ∧ it.tag = 0
  · by_cases h2 : pg = 0
    · simp [h1, h2]
    · simp [h1, h2]
  · by_cases h3 : it.typ = 2 ∧ it.tag = 0
    · by_cases h4 : us = 0
      · have : ¬ (it.typ = 1) := by omega
        simp [h3, h4]
      · have : ¬ (it.typ = 1) := by omega
        simp [h3, h4]
    · simp only [h1, h3, if_false]
      constructor
      · intro h; exact Or.inl h
      · rintro (h | ⟨ha, hb, _⟩)
        · exact h
        · exact absurd ⟨ha, hb⟩ h1

theorem stepItem_snd_ne (pg us : Nat) (it : ShortItem) :
    (stepItem (pg, us) it).2 ≠ 0 ↔
      us ≠ 0 ∨ (it.typ = 2 ∧ it.tag = 0 ∧ it.value % 2 ^ 16 ≠ 0) := by
  unfold stepItem
  by_cases h1 : it.typ = 1 ∧ it.tag = 0
  · have : ¬ (it.typ = 2) := by omega
    by_cases h2 : pg = 0
    · simp [h1, h2]
    · simp [h1, h2]
  · by_cases h3 : it.typ = 2 ∧ it.tag = 0
    · by_cases h4 : us = 0
      · have : ¬ (it.typ = 1) := by omega
        simp [h3, h4]
      · have : ¬ (it.typ = 1) := by omega
        simp [h3, h4]
    · simp only [h1, h3, if_false]
      constructor
      · intro h; exact Or.inl h
      · rintro (h | ⟨ha, hb, _⟩)
        · exact h
        · exact absurd ⟨ha, hb⟩ h3

/-- The first field of the fold is non-zero exactly when it started non-zero or some
item is a Usage Page item with non-zero low 16 bits. -/
theorem foldl_stepItem_fst_ne (l : List ShortItem) :
    ∀ pg us : Nat, (l.foldl stepItem (pg, us)).1 ≠ 0 ↔
      pg ≠ 0 ∨ ∃ it ∈ l, it.typ = 1 ∧ it.tag = 0 ∧ it.value % 2 ^ 16 ≠ 0 := by
  induction l with
  | nil => intro pg us; simp
  | cons x l ih =>
    intro pg us
    rw [List.foldl_cons]
    have hst : stepItem (pg, us) x = ((stepItem (pg, us) x).1, (stepItem (pg, us) x).2) := rfl
    rw [hst, ih, stepItem_fst_ne]
    simp only [List.mem_cons, exists_eq_or_imp]
    tauto

/-- The second field of the fold is non-zero exactly when it started non-zero or
some item is a Usage item with non-zero low 16 bits. -/
theorem foldl_stepItem_snd_ne (l : List ShortItem) :
    ∀ pg us : Nat, (l.foldl stepItem (pg, us)).2 ≠ 0 ↔
      us ≠ 0 ∨ ∃ it ∈ l, it.typ = 2 ∧ it.tag = 0 ∧ it.value % 2 ^ 16 ≠ 0 := by
  induction l with
  | nil => intro pg us; simp
  | cons x l ih =>
    intro pg us
    rw [List.foldl_cons]
    have hst : stepItem (pg, us) x = ((stepItem (pg, us) x).1, (stepItem (pg, us) x).2) := rfl
    rw [hst, ih, stepItem_snd_ne]
    simp only [List.mem_cons, exists_eq_or_imp]
    tauto

/-- C1: for every byte sequence `b`, `parseReportDescriptor b` returns the reference
fold: the complete short items of `b` (decoded front to back, stopping at the end or
at the first item with too few data bytes) folded from `(0, 0)` by `stepItem`, with
no early exit. The second and third parts state the decoding the fold runs over:
nothing for no bytes, and for `p :: rest` either nothing (fewer data bytes than the
length of the size code `p % 4`) or the item of type `p / 4 % 4`, tag `p / 16 % 16`
and little-endian value of the data bytes, followed by the items of the bytes after
them. -/
theorem parseReportDescriptor_eq_referenceFold (b : List (Fin 256)) :
    parseReportDescriptor b = some ((decodeItems b).foldl stepItem (0, 0)) ∧
    decodeItems [] = [] ∧
    ∀ (p : Fin 256) (rest : List (Fin 256)),
      decodeItems (p :: rest) =
        if rest.length < itemDataLength (p.val % 4) then []
        else
          { typ := p.val / 4 % 4, tag := p.val / 16 % 16,
            value := littleEndian (rest.take (itemDataLength (p.val % 4))) }
            :: decodeItems (rest.drop (itemDataLength (p.val % 4))) :=
  ⟨parseLoop_eq_fold (b.length + 1) b 0 0 (by omega), decodeItems_nil,
    fun p rest => decodeItems_cons p rest⟩

/-- C4: if `parseReportDescriptor b` returns `(p, u)` with both fields non-zero, then
for every byte sequence `s` the parser returns the same `(p, u)` on `b ++ s`. -/
theorem parseReportDescriptor_resolved_append (b s : List (Fin 256)) (p u : Nat)
    (h : parseReportDescriptor b = some (p, u)) (hp : p ≠ 0) (hu : u ≠ 0) :
    parseReportDescriptor (b ++ s) = some (p, u) := by
  rw [parseReportDescriptor_eq] at h ⊢
  have hb : (decodeItems b).foldl stepItem (0, 0) = (p, u) := Option.some.inj h
  obtain ⟨more, hmore⟩ := decodeItems_append_extends b.length b (le_refl _) s
  unfold referenceFold at hb ⊢
  rw [hmore, List.foldl_append, hb,
    foldl_stepItem_resolved p u (Nat.pos_of_ne_zero hp) (Nat.pos_of_ne_zero hu)]

theorem parseReportDescriptor_resolved_append_witness :
    parseReportDescriptor [0x05, 0x01, 0x09, 0x02] = some (1, 2) ∧
    parseReportDescriptor ([0x05, 0x01, 0x09, 0x02] ++ [0x05, 0x07, 0x09, 0x03]) = some (1, 2) :=
  ⟨by decide,
    parseReportDescriptor_resolved_append [0x05, 0x01, 0x09, 0x02] [0x05, 0x07, 0x09, 0x03] 1 2
      (by decide) (by decide) (by decide)⟩

/-- C5: truncation is not an error and loses nothing already resolved: the parser
returns `(0, 0)` on no bytes, and for every concatenation `b` of complete short items
and every truncated item `t` it returns a pair on `b ++ t`, the one it returns on
`b`. -/
theorem parseReportDescriptor_truncated (items : List (List (Fin 256))) (t : List (Fin 256))
    (hitems : ∀ it ∈ items, isCompleteItem it = true) (ht : isTruncatedItem t = true) :
    parseReportDescriptor [] = some (0, 0) ∧
    parseReportDescriptor (items.flatten ++ t) = parseReportDescriptor items.flatten ∧
    (parseReportDescriptor (items.flatten ++ t)).isSome = true := by
  refine ⟨rfl, ?_, ?_⟩
  · rw [parseReportDescriptor_eq, parseReportDescriptor_eq]
    obtain ⟨xs, h1, h2⟩ := decodeItems_flatten_append items hitems t
    unfold referenceFold
    rw [h2, h1, decodeItems_truncated t ht, List.append_nil]
  · rw [parseReportDescriptor_eq]
    rfl

theorem parseReportDescriptor_truncated_witness :
    (∀ it ∈ [[(0x05 : Fin 256), 0x01], [0x0a, 0x34, 0x12]], isCompleteItem it = true) ∧
    isTruncatedItem [0x0b, 0x02, 0x00, 0x00] = true ∧
    parseReportDescriptor [] = some (0, 0) ∧
    parseReportDescriptor
        ([[(0x05 : Fin 256), 0x01], [0x0a, 0x34, 0x12]].flatten ++ [0x0b, 0x02, 0x00, 0x00]) =
      parseReportDescriptor [[(0x05 : Fin 256), 0x01], [0x0a, 0x34, 0x12]].flatten ∧
    (parseReportDescriptor
        ([[(0x05 : Fin 256), 0x01], [0x0a, 0x34, 0x12]].flatten ++
          [0x0b, 0x02, 0x00, 0x00])).isSome = true :=
  ⟨by decide, by decide,
    parseReportDescriptor_truncated [[0x05, 0x01], [0x0a, 0x34, 0x12]] [0x0b, 0x02, 0x00, 0x00]
      (by decide) (by decide)⟩

/-- C8 (as stated, refuted): on the single complete Usage Page item `[0x05, 0x01]`
the parser returns `(1, 0)`, exactly one field set, so it is not true that every
returned pair is both zero or both non-zero. -/
theorem parseReportDescriptor_one_field_set :
    parseReportDescriptor [0x05, 0x01] = some (1, 0) ∧
    ¬ ∀ (b : List (Fin 256)) (p u : Nat), parseReportDescriptor b = some (p, u) →
        (p = 0 ∧ u = 0) ∨ (p ≠ 0 ∧ u ≠ 0) := by
  refine ⟨by decide, fun h => ?_⟩
  have h1 := h [0x05, 0x01] 1 0 (by decide)
  omega

/-- C8 (amended): for every byte sequence the parser returns a pair whose fields are
resolved independently: `usagePage` is non-zero exactly when some complete item is a
Usage Page item (type 1, tag 0) whose value has non-zero low 16 bits, and `usage` is
non-zero exactly when some complete item is a Usage item (type 2, tag 0) whose value
has non-zero low 16 bits. -/
theorem parseReportDescriptor_fields_independent (b : List (Fin 256)) :
    ∃ p u : Nat, parseReportDescriptor b = some (p, u) ∧
      (p ≠ 0 ↔ ∃ it ∈ decodeItems b, it.typ = 1 ∧ it.tag = 0 ∧ it.value % 2 ^ 16 ≠ 0) ∧
      (u ≠ 0 ↔ ∃ it ∈ decodeItems b, it.typ = 2 ∧ it.tag = 0 ∧ it.value % 2 ^ 16 ≠ 0) := by
  refine ⟨(referenceFold b).1, (referenceFold b).2, parseReportDescriptor_eq b, ?_, ?_⟩
  · unfold referenceFold
    rw [foldl_stepItem_fst_ne]
    simp
  · unfold referenceFold
    rw [foldl_stepItem_snd_ne]
    simp

/-! ## Theorems: wide-character string decoder -/

theorem gowchar_get_first (done rest : List Int) (x : Int) :
    gowchar_get (done ++ x :: rest) done.length = some x := by
  unfold gowchar_get
  rw [List.getElem?_append_right (le_refl _)]
  simp

theorem gowchar_get_second (done rest : List Int) (x y : Int) :
    gowchar_get (done ++ x :: y :: rest) (done.length + 1) = some y := by
  have h : done ++ x :: y :: rest = (done ++ [x]) ++ y :: rest := by simp
  have hl : done.length + 1 = (done ++ [x]).length := by simp
  rw [h, hl]
  exact gowchar_get_first _ _ _

theorem string_append_mk_cons (res : String) (c : Char) (cs : List Char) :
    res ++ String.singleton c ++ String.mk cs = res ++ String.mk (c :: cs) := by
  apply String.ext
  simp [String.data_append, String.singleton]

theorem string_empty_append (x : String) : "" ++ x = x := by
  apply String.ext
  simp [String.data_append]

theorem string_append_mk_nil (res : String) : res ++ String.mk [] = res := by
  apply String.ext
  simp [String.data_append]

/-- One iteration of the 4-byte loop at the terminating zero. -/
theorem wchar4Loop_zero (s : List Int) (fuel i : Nat) (res : String)
    (h : gowchar_get s i = some 0) :
    wchar4Loop s (fuel + 1) i res = some (res, none) := by
  rw [wchar4Loop, h]
  simp

/-- One iteration of the 4-byte loop at a non-zero unit that is not a valid rune. -/
theorem wchar4Loop_invalid (s : List Int) (fuel i : Nat) (res : String) (ch : Int)
    (h : gowchar_get s i = some ch) (h0 : ch ≠ 0) (hv : validRune ch = false) :
    wchar4Loop s (fuel + 1) i res = some ("", some (WcharError.invalidRune i)) := by
  rw [wchar4Loop, h]
  simp [h0, hv]

/-- One iteration of the 4-byte loop at a non-zero valid rune. -/
theorem wchar4Loop_valid (s : List Int) (fuel i : Nat) (res : String) (ch : Int)
    (h : gowchar_get s i = some ch) (h0 : ch ≠ 0) (hv : validRune ch = true) :
    wchar4Loop s (fuel + 1) i res =
      wchar4Loop s fuel (i + 1) (res ++ String.singleton (Char.ofNat ch.toNat)) := by
  rw [wchar4Loop, h]
  simp [h0, hv, runeToString]

/-- The 4-byte loop runs through a stretch of non-zero valid runes, one iteration per
unit, appending their characters. -/
theorem wchar4Loop_skip (pre : List Int) :
    (∀ u ∈ pre, u ≠ 0 ∧ validRune u = true) →
    ∀ (done rest : List Int) (fuel : Nat) (res : String),
      wchar4Loop (done ++ (pre ++ rest)) (fuel + pre.length) done.length res =
        wchar4Loop (done ++ (pre ++ rest)) fuel (done.length + pre.length)
          (res ++ String.mk (pre.map (fun c => Char.ofNat c.toNat))) := by
  induction pre with
  | nil =>
    intro _ done rest fuel res
    simp [string_append_mk_nil]
  | cons x pre ih =>
    intro h done rest fuel res
    have hx := h x (List.mem_cons_self _ _)
    have hpre : ∀ u ∈ pre, u ≠ 0 ∧ validRune u = true :=
      fun u hu => h u (List.mem_cons_of_mem _ hu)
    have hfuel : fuel + (x :: pre).length = (fuel + pre.length) + 1 := by simp; omega
    rw [hfuel, wchar4Loop_valid _ _ _ _ x (by rw [List.cons_append]; exact gowchar_get_first _ _ _)
      hx.1 hx.2]
    have hbuf : done ++ (x :: pre ++ rest) = (done ++ [x]) ++ (pre ++ rest) := by simp
    have hlen : done.length + 1 = (done ++ [x]).length := by simp
    rw [hbuf, hlen, ih hpre (done ++ [x]) rest fuel, List.map_cons, string_append_mk_cons]
    simp only [List.length_append, List.length_cons, List.length_nil]
    have : done.length + (0 + 1) + pre.length = done.length + (pre.length + 1) := by omega
    rw [this]

theorem char_toNat_ofNat (n : Nat) (h : n.isValidChar) : (Char.ofNat n).toNat = n := by
  unfold Char.ofNat
  simp only [h, dite_true, Char.ofNatAux, Char.toNat]
  rfl

theorem char_toNat_valid (c : Char) :
    c.toNat < 0xD800 ∨ (0xDFFF < c.toNat ∧ c.toNat < 0x110000) := by
  have h := c.valid
  simp only [UInt32.isValidChar, Nat.isValidChar] at h
  exact h

theorem validRune_iff (r : Int) :
    validRune r = true ↔ (0 ≤ r ∧ r < 0xD800) ∨ (0xDFFF < r ∧ r ≤ 0x10FFFF) := by
  unfold validRune
  by_cases h1 : 0 ≤ r ∧ r < 0xD800
  · simp [h1]
  · by_cases h2 : 0xDFFF < r ∧ r ≤ 0x10FFFF
    · simp [h2]
    · simp only [h1, h2, if_false, or_self]
      simp

theorem validRune_eq_false_iff (r : Int) :
    validRune r = false ↔ r < 0 ∨ (0xD800 ≤ r ∧ r ≤ 0xDFFF) ∨ 0x10FFFF < r := by
  rw [← Bool.not_eq_true, validRune_iff]
  omega

/-- A list with an element failing `P` splits at the first such element. -/
theorem exists_first_failing {α : Type} (P : α → Prop) (l : List α)
    (h : ¬ ∀ x ∈ l, P x) :
    ∃ good x more, l = good ++ x :: more ∧ (∀ y ∈ good, P y) ∧ ¬ P x := by
  induction l with
  | nil => exact absurd (fun x hx => absurd hx (List.not_mem_nil x)) h
  | cons a l ih =>
    by_cases ha : P a
    · have hl : ¬ ∀ x ∈ l, P x := by
        intro hall
        apply h
        intro x hx
        rcases List.mem_cons.mp hx with rfl | hx
        · exact ha
        · exact hall x hx
      obtain ⟨good, x, more, hsplit, hgood, hx⟩ := ih hl
      refine ⟨a :: good, x, more, by rw [hsplit, List.cons_append], ?_, hx⟩
      intro y hy
      rcases List.mem_cons.mp hy with rfl | hy
      · exact ha
      · exact hgood y hy
    · exact ⟨[], a, l, rfl, fun y hy => absurd hy (List.not_mem_nil y), ha⟩

/-- The 4-byte decoder on a buffer that starts with non-zero valid runes followed by
a zero unit. -/
theorem wchar4ToString_of_valid (cs t : List Int) (h : ∀ u ∈ cs, u ≠ 0 ∧ validRune u = true) :
    wchar4ToString (cs ++ [0] ++ t) =
      some (String.mk (cs.map (fun c => Char.ofNat c.toNat)), none) := by
  unfold wchar4ToString
  have hfuel : (cs ++ [0] ++ t).length + 1 = (t.length + 1 + 1) + cs.length := by
    simp; omega
  have hbuf : cs ++ [0] ++ t = [] ++ (cs ++ 0 :: t) := by simp
  rw [hfuel, hbuf]
  have hskip := wchar4Loop_skip cs h [] (0 :: t) (t.length + 1 + 1) ""
  simp only [List.length_nil] at hskip
  have hget : gowchar_get ([] ++ (cs ++ 0 :: t)) (0 + cs.length) = some 0 := by
    rw [List.nil_append, Nat.zero_add]
    exact gowchar_get_first cs t 0
  rw [hskip, wchar4Loop_zero _ _ _ _ hget, string_empty_append]

/-- The 4-byte decoder on a buffer that starts with non-zero valid runes followed by
a non-zero unit that is not a valid rune. -/
theorem wchar4ToString_of_invalid (pre t : List Int) (x : Int)
    (h : ∀ u ∈ pre, u ≠ 0 ∧ validRune u = true) (hx0 : x ≠ 0) (hx : validRune x = false) :
    wchar4ToString (pre ++ x :: t) = some ("", some (WcharError.invalidRune pre.length)) := by
  unfold wchar4ToString
  have hfuel : (pre ++ x :: t).length + 1 = (t.length + 1 + 1) + pre.length := by
    simp; omega
  have hbuf : pre ++ x :: t = [] ++ (pre ++ x :: t) := by simp
  rw [hfuel, hbuf]
  have hskip := wchar4Loop_skip pre h [] (x :: t) (t.length + 1 + 1) ""
  simp only [List.length_nil] at hskip
  have hget : gowchar_get ([] ++ (pre ++ x :: t)) (0 + pre.length) = some x := by
    rw [List.nil_append, Nat.zero_add]
    exact gowchar_get_first pre t x
  rw [hskip, wchar4Loop_invalid _ _ _ _ x hget hx0 hx, Nat.zero_add]

theorem scalar_valid (c : Int) (h : 1 ≤ c ∧ c ≤ 0x10FFFF ∧ ¬ (0xD800 ≤ c ∧ c ≤ 0xDFFF)) :
    c ≠ 0 ∧ validRune c = true := by
  refine ⟨by omega, ?_⟩
  rw [validRune_iff]
  omega

theorem scalar_roundtrip (c : Int) (h : 1 ≤ c ∧ c ≤ 0x10FFFF ∧ ¬ (0xD800 ≤ c ∧ c ≤ 0xDFFF)) :
    ((Char.ofNat c.toNat).toNat : Int) = c := by
  have hv : c.toNat.isValidChar := by
    simp only [Nat.isValidChar]
    omega
  rw [char_toNat_ofNat _ hv]
  omega

/-- C3: for every sequence `cs` of non-zero valid Unicode scalar values (32-bit
units) and every sequence of units `t`, `wchar4ToString` on `cs ++ [0] ++ t` returns
without error the string whose characters are the units of `cs` in order: nothing
after the first zero unit contributes, and the code points of the returned
characters are again `cs`. -/
theorem wchar4ToString_scalars (cs t : List Int)
    (h : ∀ c ∈ cs, 1 ≤ c ∧ c ≤ 0x10FFFF ∧ ¬ (0xD800 ≤ c ∧ c ≤ 0xDFFF)) :
    wchar4ToString (cs ++ [0] ++ t) =
      some (String.mk (cs.map (fun c => Char.ofNat c.toNat)), none) ∧
    (cs.map (fun c => Char.ofNat c.toNat)).map (fun ch => (ch.toNat : Int)) = cs := by
  refine ⟨wchar4ToString_of_valid cs t (fun u hu => scalar_valid u (h u hu)), ?_⟩
  induction cs with
  | nil => rfl
  | cons c cs ih =>
    simp only [List.map_cons]
    rw [scalar_roundtrip c (h c (List.mem_cons_self _ _)),
      ih (fun u hu => h u (List.mem_cons_of_mem _ hu))]

theorem wchar4ToString_scalars_witness :
    (∀ c ∈ [(0x41 : Int), 0x1F600], 1 ≤ c ∧ c ≤ 0x10FFFF ∧ ¬ (0xD800 ≤ c ∧ c ≤ 0xDFFF)) ∧
    wchar4ToString ([0x41, 0x1F600] ++ [0] ++ [0x42, 0xD800]) =
      some (String.mk ([(0x41 : Int), 0x1F600].map (fun c => Char.ofNat c.toNat)), none) ∧
    ([(0x41 : Int), 0x1F600].map (fun c => Char.ofNat c.toNat)).map
      (fun ch => (ch.toNat : Int)) = [0x41, 0x1F600] :=
  ⟨by decide, wchar4ToString_scalars [0x41, 0x1F600] [0x42, 0xD800] (by decide)⟩

/-- C7: for every buffer of 32-bit units with a zero unit (`pre` holds the units
before the first zero), `wchar4ToString` returns; it returns an error if and only if
some unit before the first zero is not a valid Unicode scalar value (negative, in
0xD800..0xDFFF, or above 0x10FFFF); and in that case the error is an invalid-rune
error and the returned string is empty. -/
theorem wchar4ToString_fails_iff (pre t : List Int) (h0 : ∀ u ∈ pre, u ≠ 0) :
    ∃ str err, wchar4ToString (pre ++ [0] ++ t) = some (str, err) ∧
      (err ≠ none ↔ ∃ u ∈ pre, u < 0 ∨ (0xD800 ≤ u ∧ u ≤ 0xDFFF) ∨ 0x10FFFF < u) ∧
      (err ≠ none → str = "" ∧ ∃ k, err = some (WcharError.invalidRune k)) := by
  by_cases hall : ∀ u ∈ pre, validRune u = true
  · refine ⟨_, none, wchar4ToString_of_valid pre t (fun u hu => ⟨h0 u hu, hall u hu⟩), ?_, ?_⟩
    · constructor
      · intro h; exact absurd rfl h
      · rintro ⟨u, hu, hbad⟩
        have hv := hall u hu
        rw [← validRune_eq_false_iff, hv] at hbad
        exact absurd hbad (by decide)
    · intro h; exact absurd rfl h
  · obtain ⟨good, x, more, hsplit, hgood, hx⟩ :=
      exists_first_failing (fun u => validRune u = true) pre hall
    have hxmem : x ∈ pre := by rw [hsplit]; simp
    have hx' : validRune x = false := by simpa using hx
    have hgood' : ∀ u ∈ good, u ≠ 0 ∧ validRune u = true := by
      intro u hu
      exact ⟨h0 u (by rw [hsplit]; simp [hu]), hgood u hu⟩
    have hres := wchar4ToString_of_invalid good (more ++ [0] ++ t) x hgood' (h0 x hxmem) hx'
    have hbuf : pre ++ [0] ++ t = good ++ x :: (more ++ [0] ++ t) := by rw [hsplit]; simp
    refine ⟨"", some (WcharError.invalidRune good.length), by rw [hbuf]; exact hres, ?_, ?_⟩
    · constructor
      · intro _
        exact ⟨x, hxmem, (validRune_eq_false_iff x).mp hx'⟩
      · intro _; simp
    · intro _
      exact ⟨rfl, good.length, rfl⟩

theorem wchar4ToString_fails_iff_witness :
    (∀ u ∈ [(0x41 : Int), 0xD800], u ≠ 0) ∧
    ∃ str err, wchar4ToString ([0x41, 0xD800] ++ [0] ++ [5]) = some (str, err) ∧
      (err ≠ none ↔
        ∃ u ∈ [(0x41 : Int), 0xD800], u < 0 ∨ (0xD800 ≤ u ∧ u ≤ 0xDFFF) ∨ 0x10FFFF < u) ∧
      (err ≠ none → str = "" ∧ ∃ k, err = some (WcharError.invalidRune k)) :=
  ⟨by decide, wchar4ToString_fails_iff [0x41, 0xD800] [5] (by decide)⟩

/-- C10 (as stated, refuted): on `[0xD800, 0]` the first unit that is not a valid
scalar value is at index 0 and `wchar4ToString` reports an invalid rune at position
0, not at position 1. -/
theorem wchar4ToString_position_zero_based :
    wchar4ToString [0xD800, 0] = some ("", some (WcharError.invalidRune 0)) ∧
    wchar4ToString [0xD800, 0] ≠ some ("", some (WcharError.invalidRune (0 + 1))) := by
  constructor <;> decide

/-- C10 (amended): when the first unit that is not a valid Unicode scalar value is at
0-based index `k` (all units before it being non-zero valid scalar values),
`wchar4ToString` reports an invalid rune at position `k`, the number of units
consumed before the failing one, with an empty string. -/
theorem wchar4ToString_invalid_position (pre t : List Int) (x : Int)
    (h : ∀ c ∈ pre, 1 ≤ c ∧ c ≤ 0x10FFFF ∧ ¬ (0xD800 ≤ c ∧ c ≤ 0xDFFF))
    (hx : x < 0 ∨ (0xD800 ≤ x ∧ x ≤ 0xDFFF) ∨ 0x10FFFF < x) :
    wchar4ToString (pre ++ [x] ++ t) = some ("", some (WcharError.invalidRune pre.length)) := by
  have hbuf : pre ++ [x] ++ t = pre ++ x :: t := by simp
  rw [hbuf]
  exact wchar4ToString_of_invalid pre t x (fun u hu => scalar_valid u (h u hu)) (by omega)
    ((validRune_eq_false_iff x).mpr hx)

theorem wchar4ToString_invalid_position_witness :
    (∀ c ∈ [(0x41 : Int), 0x42], 1 ≤ c ∧ c ≤ 0x10FFFF ∧ ¬ (0xD800 ≤ c ∧ c ≤ 0xDFFF)) ∧
    ((0x110000 : Int) < 0 ∨ (0xD800 ≤ (0x110000 : Int) ∧ (0x110000 : Int) ≤ 0xDFFF) ∨
      0x10FFFF < (0x110000 : Int)) ∧
    wchar4ToString ([0x41, 0x42] ++ [0x110000] ++ [0]) =
      some ("", some (WcharError.invalidRune [(0x41 : Int), 0x42].length)) :=
  ⟨by decide, by decide,
    wchar4ToString_invalid_position [0x41, 0x42] [0] 0x110000 (by decide) (by decide)⟩

/-- One iteration of the 2-byte loop at the terminating zero. -/
theorem wchar2Loop_zero (s : List Int) (fuel i : Nat) (res : String)
    (h : gowchar_get s i = some 0) :
    wchar2Loop s (fuel + 1) i res = some (res, none) := by
  rw [wchar2Loop, h]
  simp

/-- One iteration of the 2-byte loop at a non-zero, non-surrogate, valid unit. -/
theorem wchar2Loop_plain (s : List Int) (fuel i : Nat) (res : String) (ch : Int)
    (h : gowchar_get s i = some ch) (h0 : ch ≠ 0) (hs : isSurrogate ch = false)
    (hv : validRune ch = true) :
    wchar2Loop s (fuel + 1) i res =
      wchar2Loop s fuel (i + 1) (res ++ String.singleton (Char.ofNat ch.toNat)) := by
  rw [wchar2Loop, h]
  simp [h0, hs, hv, runeToString]

/-- One iteration of the 2-byte loop at a surrogate whose pairing succeeds. -/
theorem wchar2Loop_pair (s : List Int) (fuel i : Nat) (res : String) (ch ch2 : Int)
    (h : gowchar_get s i = some ch) (h0 : ch ≠ 0) (hs : isSurrogate ch = true)
    (h2 : gowchar_get s (i + 1) = some ch2) (hd : decodeRune ch ch2 ≠ 0xFFFD) :
    wchar2Loop s (fuel + 1) i res =
      wchar2Loop s fuel (i + 1 + 1) (res ++ runeToString (decodeRune ch ch2)) := by
  rw [wchar2Loop, h]
  simp [h0, hs, h2, hd]

/-- One iteration of the 2-byte loop at a surrogate whose pairing fails. -/
theorem wchar2Loop_bad_pair (s : List Int) (fuel i : Nat) (res : String) (ch ch2 : Int)
    (h : gowchar_get s i = some ch) (h0 : ch ≠ 0) (hs : isSurrogate ch = true)
    (h2 : gowchar_get s (i + 1) = some ch2) (hd : decodeRune ch ch2 = 0xFFFD) :
    wchar2Loop s (fuel + 1) i res = some ("", some (WcharError.invalidSurrogatePair i)) := by
  rw [wchar2Loop, h]
  simp [h0, hs, h2, hd]

/-- The pairing formula on a high and a low surrogate, in arithmetic. -/
theorem decodeRune_pair (h l : Int) (hh : 0xD800 ≤ h ∧ h ≤ 0xDBFF) (hl : 0xDC00 ≤ l ∧ l ≤ 0xDFFF) :
    decodeRune h l = 0x10000 + (h - 0xD800) * 0x400 + (l - 0xDC00) := by
  unfold decodeRune
  have hc : 0xd800 ≤ h ∧ h < 0xdc00 ∧ 0xdc00 ≤ l ∧ l < 0xe000 := by omega
  rw [if_pos hc]
  have hb : (l - 0xdc00).toNat < 2 ^ 10 := by
    have : (2 : Nat) ^ 10 = 1024 := by norm_num
    omega
  have hor : (h - 0xd800).toNat <<< 10 ||| (l - 0xdc00).toNat =
      2 ^ 10 * (h - 0xd800).toNat + (l - 0xdc00).toNat := by
    rw [Nat.shiftLeft_eq, Nat.mul_comm, ← Nat.mul_add_lt_is_or hb]
  rw [hor]
  have : (2 : Nat) ^ 10 = 1024 := by norm_num
  rw [this]
  omega

theorem decodeRune_bad (r1 r2 : Int)
    (h : ¬ (0xD800 ≤ r1 ∧ r1 ≤ 0xDBFF ∧ 0xDC00 ≤ r2 ∧ r2 ≤ 0xDFFF)) :
    decodeRune r1 r2 = 0xFFFD := by
  unfold decodeRune
  have hc : ¬ (0xd800 ≤ r1 ∧ r1 < 0xdc00 ∧ 0xdc00 ≤ r2 ∧ r2 < 0xe000) := by omega
  rw [if_neg hc]

theorem validRune_char (c : Char) : validRune (c.toNat : Int) = true := by
  rw [validRune_iff]
  have := char_toNat_valid c
  omega

theorem runeToString_char (c : Char) : runeToString (c.toNat : Int) = String.singleton c := by
  unfold runeToString
  rw [validRune_char, if_pos rfl, Int.toNat_natCast, Char.ofNat_toNat]

/-- The 2-byte loop decodes the reference encoding of one non-NUL scalar value in one
iteration. -/
theorem wchar2Loop_encoded_char (c : Char) (hc : c.toNat ≠ 0) (done rest : List Int)
    (fuel : Nat) (res : String) :
    wchar2Loop (done ++ (utf16EncodeChar c ++ rest)) (fuel + 1) done.length res =
      wchar2Loop (done ++ (utf16EncodeChar c ++ rest)) fuel
        (done.length + (utf16EncodeChar c).length) (res ++ String.singleton c) := by
  have hvalid := char_toNat_valid c
  unfold utf16EncodeChar
  by_cases hsmall : c.toNat < 0x10000
  · simp only [hsmall, if_true, List.singleton_append, List.length_singleton]
    rw [wchar2Loop_plain _ _ _ _ (c.toNat : Int) (gowchar_get_first _ _ _) (by omega)
      (by simp only [isSurrogate, decide_eq_false_iff_not]; omega) (validRune_char c),
      Int.toNat_natCast, Char.ofNat_toNat]
  · simp only [hsmall, if_false, List.cons_append, List.nil_append, List.length_cons,
      List.length_nil]
    have hd : decodeRune ((0xD800 + (c.toNat - 0x10000) / 0x400 : Nat) : Int)
        ((0xDC00 + (c.toNat - 0x10000) % 0x400 : Nat) : Int) = (c.toNat : Int) := by
      rw [decodeRune_pair _ _ (by omega) (by omega)]
      omega
    rw [wchar2Loop_pair _ _ _ _ _ _ (gowchar_get_first _ _ _) (by omega)
      (by simp only [isSurrogate, decide_eq_true_eq]; omega) (gowchar_get_second _ _ _ _)
      (by rw [hd]; omega), hd, runeToString_char]

theorem length_le_utf16Encode (s : List Char) : s.length ≤ (utf16Encode s).length := by
  induction s with
  | nil => simp [utf16Encode]
  | cons c s ih =>
    have hc : 1 ≤ (utf16EncodeChar c).length := by
      unfold utf16EncodeChar
      split <;> simp
    simp only [utf16Encode, List.length_cons, List.length_append]
    omega

/-- The 2-byte loop runs through the reference encoding of non-NUL scalar values, one
iteration per scalar value, appending exactly those values. -/
theorem wchar2Loop_encoded (s : List Char) :
    (∀ c ∈ s, c.toNat ≠ 0) →
    ∀ (done rest : List Int) (fuel : Nat) (res : String),
      wchar2Loop (done ++ (utf16Encode s ++ rest)) (fuel + s.length) done.length res =
        wchar2Loop (done ++ (utf16Encode s ++ rest)) fuel
          (done.length + (utf16Encode s).length) (res ++ String.mk s) := by
  induction s with
  | nil =>
    intro _ done rest fuel res
    simp [utf16Encode, string_append_mk_nil]
  | cons c s ih =>
    intro h done rest fuel res
    have hc := h c (List.mem_cons_self _ _)
    have hs : ∀ x ∈ s, x.toNat ≠ 0 := fun x hx => h x (List.mem_cons_of_mem _ hx)
    have hfuel : fuel + (c :: s).length = (fuel + s.length) + 1 := by simp; omega
    have hbuf : done ++ (utf16Encode (c :: s) ++ rest) =
        done ++ (utf16EncodeChar c ++ (utf16Encode s ++ rest)) := by
      simp [utf16Encode]
    rw [hfuel, hbuf, wchar2Loop_encoded_char c hc]
    have hbuf2 : done ++ (utf16EncodeChar c ++ (utf16Encode s ++ rest)) =
        (done ++ utf16EncodeChar c) ++ (utf16Encode s ++ rest) := by simp
    have hlen : done.length + (utf16EncodeChar c).length = (done ++ utf16EncodeChar c).length := by
      simp
    rw [hbuf2, hlen, ih hs (done ++ utf16EncodeChar c) rest fuel, string_append_mk_cons]
    simp only [utf16Encode, List.length_append, Nat.add_assoc]

/-- C2: for every sequence `s` of Unicode scalar values none of which is U+0000 and
every sequence of units `t`, `wchar2ToString` on `utf16Encode s ++ [0] ++ t` returns
without error exactly the string of `s`; and the buffer `[0x0041, 0x0042, 0x0000]`
decodes to "AB". -/
theorem wchar2ToString_utf16Encode (s : List Char) (t : List Int) (h : ∀ c ∈ s, c.toNat ≠ 0) :
    wchar2ToString (utf16Encode s ++ [0] ++ t) = some (String.mk s, none) ∧
    wchar2ToString [0x0041, 0x0042, 0x0000] = some ("AB", none) := by
  refine ⟨?_, by decide⟩
  unfold wchar2ToString
  have hle := length_le_utf16Encode s
  obtain ⟨f, hf⟩ : ∃ f, (utf16Encode s ++ [0] ++ t).length + 1 = (f + 1) + s.length :=
    ⟨(utf16Encode s ++ [0] ++ t).length - s.length, by
      simp only [List.length_append, List.length_cons, List.length_nil]; omega⟩
  have hbuf : utf16Encode s ++ [0] ++ t = [] ++ (utf16Encode s ++ 0 :: t) := by simp
  rw [hf, hbuf]
  have hskip := wchar2Loop_encoded s h [] (0 :: t) (f + 1) ""
  simp only [List.length_nil] at hskip
  have hget : gowchar_get ([] ++ (utf16Encode s ++ 0 :: t)) (0 + (utf16Encode s).length) =
      some 0 := by
    rw [List.nil_append, Nat.zero_add]
    exact gowchar_get_first _ t 0
  rw [hskip, wchar2Loop_zero _ _ _ _ hget, string_empty_append]

theorem wchar2ToString_utf16Encode_witness :
    (∀ c ∈ [Char.ofNat 0x41, Char.ofNat 0x1F600], c.toNat ≠ 0) ∧
    wchar2ToString (utf16Encode [Char.ofNat 0x41, Char.ofNat 0x1F600] ++ [0] ++ [0xD800]) =
      some (String.mk [Char.ofNat 0x41, Char.ofNat 0x1F600], none) ∧
    wchar2ToString [0x0041, 0x0042, 0x0000] = some ("AB", none) :=
  ⟨by decide, wchar2ToString_utf16Encode [Char.ofNat 0x41, Char.ofNat 0x1F600] [0xD800]
    (by decide)⟩

theorem wellFormedUtf16_cons_plain (u : Int) (rest : List Int)
    (hh : isHighSurrogate u = false) (hl : isLowSurrogate u = false) :
    wellFormedUtf16 (u :: rest) = wellFormedUtf16 rest := by
  cases rest <;> simp [wellFormedUtf16, hh, hl]

theorem wellFormedUtf16_cons_low (u : Int) (rest : List Int)
    (hh : isHighSurrogate u = false) (hl : isLowSurrogate u = true) :
    wellFormedUtf16 (u :: rest) = false := by
  cases rest <;> simp [wellFormedUtf16, hh, hl]

theorem wellFormedUtf16_cons_pair (u l : Int) (rest : List Int)
    (hh : isHighSurrogate u = true) :
    wellFormedUtf16 (u :: l :: rest) = (isLowSurrogate l && wellFormedUtf16 rest) := by
  simp [wellFormedUtf16, hh]

/-- The 2-byte loop runs through a well-formed stretch of non-zero 16-bit units,
in at most one iteration per unit, without failing. -/
theorem wchar2Loop_skip (n : Nat) :
    ∀ pre : List Int, pre.length ≤ n → wellFormedUtf16 pre = true →
      (∀ u ∈ pre, 0 < u ∧ u ≤ 0xFFFF) →
      ∃ k, k ≤ pre.length ∧ ∃ str : String,
        ∀ (done rest : List Int) (fuel : Nat) (res : String),
          wchar2Loop (done ++ (pre ++ rest)) (fuel + k) done.length res =
            wchar2Loop (done ++ (pre ++ rest)) fuel (done.length + pre.length) (res ++ str) := by
  induction n with
  | zero =>
    intro pre hlen _ _
    have hnil : pre = [] := List.length_eq_zero.mp (by omega)
    subst hnil
    refine ⟨0, le_refl _, "", ?_⟩
    intro done rest fuel res
    have : res ++ "" = res := string_append_mk_nil res
    simp [this]
  | succ n ih =>
    intro pre hlen hwf hunits
    cases pre with
    | nil =>
      refine ⟨0, le_refl _, "", ?_⟩
      intro done rest fuel res
      have : res ++ "" = res := string_append_mk_nil res
      simp [this]
    | cons u rest0 =>
      have hu := hunits u (List.mem_cons_self _ _)
      simp only [List.length_cons] at hlen
      by_cases hh : isHighSurrogate u = true
      · cases rest0 with
        | nil => simp [wellFormedUtf16, hh] at hwf
        | cons l rest2 =>
          rw [wellFormedUtf16_cons_pair u l rest2 hh, Bool.and_eq_true] at hwf
          simp only [List.length_cons] at hlen
          obtain ⟨k, hk, str, hstep⟩ := ih rest2 (by omega) hwf.2
            (fun x hx => hunits x (List.mem_cons_of_mem _ (List.mem_cons_of_mem _ hx)))
          have hhr : 0xD800 ≤ u ∧ u ≤ 0xDBFF := by
            simpa [isHighSurrogate] using hh
          have hlr : 0xDC00 ≤ l ∧ l ≤ 0xDFFF := by
            simpa [isLowSurrogate] using hwf.1
          have hd := decodeRune_pair u l hhr hlr
          refine ⟨k + 1, by simp only [List.length_cons]; omega,
            runeToString (decodeRune u l) ++ str, ?_⟩
          intro done rest fuel res
          have hfuel : fuel + (k + 1) = (fuel + k) + 1 := by omega
          have hb1 : done ++ (u :: l :: rest2 ++ rest) = done ++ u :: l :: (rest2 ++ rest) := by
            simp
          rw [hfuel, hb1, wchar2Loop_pair _ _ _ _ u l (gowchar_get_first _ _ _) (by omega)
            (by simp only [isSurrogate, decide_eq_true_eq]; omega) (gowchar_get_second _ _ _ _)
            (by rw [hd]; omega)]
          have hb2 : done ++ u :: l :: (rest2 ++ rest) = (done ++ [u, l]) ++ (rest2 ++ rest) := by
            simp
          have hl2 : done.length + 1 + 1 = (done ++ [u, l]).length := by simp
          rw [hb2, hl2, hstep (done ++ [u, l]) rest fuel, String.append_assoc]
          simp only [List.length_append, List.length_cons, List.length_nil]
          have : done.length + (0 + 1 + 1) + rest2.length = done.length + (rest2.length + 1 + 1) := by
            omega
          rw [this]
      · have hh' : isHighSurrogate u = false := by simpa using hh
        have hl' : isLowSurrogate u = false := by
          by_contra hl
          have hl1 : isLowSurrogate u = true := by simpa using hl
          rw [wellFormedUtf16_cons_low u rest0 hh' hl1] at hwf
          exact absurd hwf (by decide)
        rw [wellFormedUtf16_cons_plain u rest0 hh' hl'] at hwf
        obtain ⟨k, hk, str, hstep⟩ := ih rest0 (by omega) hwf
          (fun x hx => hunits x (List.mem_cons_of_mem _ hx))
        have hnh : ¬ (0xD800 ≤ u ∧ u ≤ 0xDBFF) := by
          simpa [isHighSurrogate] using hh'
        have hnl : ¬ (0xDC00 ≤ u ∧ u ≤ 0xDFFF) := by
          simpa [isLowSurrogate] using hl'
        refine ⟨k + 1, by simp only [List.length_cons]; omega,
          String.singleton (Char.ofNat u.toNat) ++ str, ?_⟩
        intro done rest fuel res
        have hfuel : fuel + (k + 1) = (fuel + k) + 1 := by omega
        have hb1 : done ++ (u :: rest0 ++ rest) = done ++ u :: (rest0 ++ rest) := by simp
        rw [hfuel, hb1, wchar2Loop_plain _ _ _ _ u (gowchar_get_first _ _ _) (by omega)
          (by simp only [isSurrogate, decide_eq_false_iff_not]; omega)
          (by rw [validRune_iff]; omega)]
        have hb2 : done ++ u :: (rest0 ++ rest) = (done ++ [u]) ++ (rest0 ++ rest) := by simp
        have hl2 : done.length + 1 = (done ++ [u]).length := by simp
        rw [hb2, hl2, hstep (done ++ [u]) rest fuel, String.append_assoc]
        simp only [List.length_append, List.length_cons, List.length_nil]
        have : done.length + (0 + 1) + rest0.length = done.length + (rest0.length + 1) := by
          omega
        rw [this]

theorem wellFormedUtf16_pair_cons (u l : Int) (good : List Int)
    (hh : isHighSurrogate u = true) (hl : isLowSurrogate l = true)
    (hg : wellFormedUtf16 good = true) : wellFormedUtf16 (u :: l :: good) = true := by
  rw [wellFormedUtf16_cons_pair u l good hh, hl, hg]
  rfl

/-- An ill-formed sequence splits at its first offending unit: a well-formed stretch,
then a low surrogate where none is expected, or a high surrogate that no low
surrogate follows. -/
theorem not_wellFormed_split (n : Nat) :
    ∀ pre : List Int, pre.length ≤ n → wellFormedUtf16 pre = false →
      ∃ good u rest, pre = good ++ u :: rest ∧ wellFormedUtf16 good = true ∧
        ((isHighSurrogate u = false ∧ isLowSurrogate u = true) ∨
          (isHighSurrogate u = true ∧ ∀ x rest2, rest = x :: rest2 → isLowSurrogate x = false)) := by
  induction n with
  | zero =>
    intro pre hlen hwf
    have hnil : pre = [] := List.length_eq_zero.mp (by omega)
    subst hnil
    simp [wellFormedUtf16] at hwf
  | succ n ih =>
    intro pre hlen hwf
    cases pre with
    | nil => simp [wellFormedUtf16] at hwf
    | cons u rest0 =>
      simp only [List.length_cons] at hlen
      by_cases hh : isHighSurrogate u = true
      · cases rest0 with
        | nil =>
          exact ⟨[], u, [], rfl, rfl, Or.inr ⟨hh, fun x rest2 h => by cases h⟩⟩
        | cons l rest2 =>
          by_cases hl : isLowSurrogate l = true
          · rw [wellFormedUtf16_cons_pair u l rest2 hh, hl, Bool.true_and] at hwf
            simp only [List.length_cons] at hlen
            obtain ⟨good, v, rest, hsplit, hgood, hv⟩ := ih rest2 (by omega) hwf
            refine ⟨u :: l :: good, v, rest, by rw [hsplit]; rfl,
              wellFormedUtf16_pair_cons u l good hh hl hgood, hv⟩
          · have hl' : isLowSurrogate l = false := by simpa using hl
            refine ⟨[], u, l :: rest2, rfl, rfl, Or.inr ⟨hh, ?_⟩⟩
            intro x r2 hx
            have := (List.cons.inj hx).1
            rw [← this]
            exact hl'
      · have hh' : isHighSurrogate u = false := by simpa using hh
        by_cases hl : isLowSurrogate u = true
        · exact ⟨[], u, rest0, rfl, rfl, Or.inl ⟨hh', hl⟩⟩
        · have hl' : isLowSurrogate u = false := by simpa using hl
          rw [wellFormedUtf16_cons_plain u rest0 hh' hl'] at hwf
          obtain ⟨good, v, rest, hsplit, hgood, hv⟩ := ih rest0 (by omega) hwf
          refine ⟨u :: good, v, rest, by rw [hsplit]; rfl, ?_, hv⟩
          rw [wellFormedUtf16_cons_plain u good hh' hl']
          exact hgood

/-- The 2-byte decoder on a buffer that starts with well-formed non-zero 16-bit
units followed by a zero unit returns without error. -/
theorem wchar2ToString_of_wellFormed (pre t : List Int) (hwf : wellFormedUtf16 pre = true)
    (hunits : ∀ u ∈ pre, 0 < u ∧ u ≤ 0xFFFF) :
    ∃ str, wchar2ToString (pre ++ 0 :: t) = some (str, none) := by
  obtain ⟨k, hk, str, hstep⟩ := wchar2Loop_skip pre.length pre (le_refl _) hwf hunits
  unfold wchar2ToString
  obtain ⟨f, hf⟩ : ∃ f, (pre ++ 0 :: t).length + 1 = (f + 1) + k :=
    ⟨(pre ++ 0 :: t).length - k, by
      simp only [List.length_append, List.length_cons]; omega⟩
  have hs := hstep [] (0 :: t) (f + 1) ""
  simp only [List.nil_append, List.length_nil, Nat.zero_add] at hs
  rw [hf, hs, wchar2Loop_zero _ _ _ _ (gowchar_get_first pre t 0)]
  exact ⟨_, rfl⟩

/-- The 2-byte decoder on a buffer that starts with well-formed non-zero 16-bit
units followed by a surrogate whose pairing with the next unit fails: the error
position is the number of units before that surrogate. -/
theorem wchar2ToString_of_bad (good tail : List Int) (u x : Int)
    (hwf : wellFormedUtf16 good = true) (hunits : ∀ v ∈ good, 0 < v ∧ v ≤ 0xFFFF)
    (hu0 : u ≠ 0) (hs : isSurrogate u = true) (hd : decodeRune u x = 0xFFFD) :
    wchar2ToString (good ++ u :: x :: tail) =
      some ("", some (WcharError.invalidSurrogatePair good.length)) := by
  obtain ⟨k, hk, str, hstep⟩ := wchar2Loop_skip good.length good (le_refl _) hwf hunits
  unfold wchar2ToString
  obtain ⟨f, hf⟩ : ∃ f, (good ++ u :: x :: tail).length + 1 = (f + 1) + k :=
    ⟨(good ++ u :: x :: tail).length - k, by
      simp only [List.length_append, List.length_cons]; omega⟩
  have hstp := hstep [] (u :: x :: tail) (f + 1) ""
  simp only [List.nil_append, List.length_nil, Nat.zero_add] at hstp
  rw [hf, hstp, wchar2Loop_bad_pair _ _ _ _ u x (gowchar_get_first _ _ _) hu0 hs
    (gowchar_get_second _ _ _ _) hd]

/-- C6: for every buffer of 16-bit units with a zero unit (`pre` holds the units
before the first zero), `wchar2ToString` returns; it returns an error if and only if
the units before the first zero are not well-formed UTF-16 (some high surrogate is
not immediately followed by a low surrogate, the terminating zero included, or a low
surrogate occurs where no high surrogate precedes it); and in every failing case the
returned string is empty. -/
theorem wchar2ToString_fails_iff (pre t : List Int) (h : ∀ u ∈ pre, 0 < u ∧ u ≤ 0xFFFF) :
    ∃ str err, wchar2ToString (pre ++ [0] ++ t) = some (str, err) ∧
      (err ≠ none ↔ wellFormedUtf16 pre = false) ∧ (err ≠ none → str = "") := by
  have hbuf : pre ++ [0] ++ t = pre ++ 0 :: t := by simp
  by_cases hwf : wellFormedUtf16 pre = true
  · obtain ⟨str, hstr⟩ := wchar2ToString_of_wellFormed pre t hwf h
    refine ⟨str, none, by rw [hbuf]; exact hstr, ?_, fun hne => absurd rfl hne⟩
    constructor
    · intro hne; exact absurd rfl hne
    · intro hf; rw [hwf] at hf; exact absurd hf (by decide)
  · have hwf' : wellFormedUtf16 pre = false := by simpa using hwf
    obtain ⟨good, u, rest, hsplit, hgood, hu⟩ :=
      not_wellFormed_split pre.length pre (le_refl _) hwf'
    have hgunits : ∀ v ∈ good, 0 < v ∧ v ≤ 0xFFFF :=
      fun v hv => h v (by rw [hsplit]; simp [hv])
    have hupos := h u (by rw [hsplit]; simp)
    have hsur : isSurrogate u = true := by
      rcases hu with ⟨_, hl⟩ | ⟨hh, _⟩
      · have : 0xDC00 ≤ u ∧ u ≤ 0xDFFF := by simpa [isLowSurrogate] using hl
        simp only [isSurrogate, decide_eq_true_eq]; omega
      · have : 0xD800 ≤ u ∧ u ≤ 0xDBFF := by simpa [isHighSurrogate] using hh
        simp only [isSurrogate, decide_eq_true_eq]; omega
    have hres : wchar2ToString (pre ++ [0] ++ t) =
        some ("", some (WcharError.invalidSurrogatePair good.length)) := by
      cases rest with
      | nil =>
        have hb : pre ++ [0] ++ t = good ++ u :: 0 :: t := by rw [hsplit]; simp
        rw [hb]
        exact wchar2ToString_of_bad good t u 0 hgood hgunits (by omega) hsur
          (decodeRune_bad u 0 (by omega))
      | cons x rest2 =>
        have hb : pre ++ [0] ++ t = good ++ u :: x :: (rest2 ++ [0] ++ t) := by
          rw [hsplit]; simp
        rw [hb]
        refine wchar2ToString_of_bad good _ u x hgood hgunits (by omega) hsur
          (decodeRune_bad u x ?_)
        rcases hu with ⟨hh, _⟩ | ⟨_, hx⟩
        · have : ¬ (0xD800 ≤ u ∧ u ≤ 0xDBFF) := by simpa [isHighSurrogate] using hh
          omega
        · have hxl := hx x rest2 rfl
          have : ¬ (0xDC00 ≤ x ∧ x ≤ 0xDFFF) := by simpa [isLowSurrogate] using hxl
          omega
    refine ⟨"", _, hres, ?_, fun _ => rfl⟩
    constructor
    · intro _; exact hwf'
    · intro _; simp

theorem wchar2ToString_fails_iff_witness :
    (∀ u ∈ [(0x41 : Int), 0xD83D, 0xDE00, 0xD800], 0 < u ∧ u ≤ 0xFFFF) ∧
    ∃ str err, wchar2ToString ([0x41, 0xD83D, 0xDE00, 0xD800] ++ [0] ++ [7]) = some (str, err) ∧
      (err ≠ none ↔ wellFormedUtf16 [0x41, 0xD83D, 0xDE00, 0xD800] = false) ∧
      (err ≠ none → str = "") :=
  ⟨by decide, wchar2ToString_fails_iff [0x41, 0xD83D, 0xDE00, 0xD800] [7] (by decide)⟩

/-- C9 (as stated, refuted): on `[0xD800, 0x0041, 0x0000]` the unpaired high
surrogate is at index 0 and `wchar2ToString` reports an invalid surrogate pair at
position 0, not at position 1. -/
theorem wchar2ToString_pair_position_zero_based :
    wchar2ToString [0xD800, 0x0041, 0x0000] =
      some ("", some (WcharError.invalidSurrogatePair 0)) ∧
    wchar2ToString [0xD800, 0x0041, 0x0000] ≠
      some ("", some (WcharError.invalidSurrogatePair 1)) := by
  constructor <;> decide

/-- C9 (amended): when the unit at 0-based index `k` is a high surrogate that is not
followed by a low surrogate (all units before `k` being well-formed UTF-16 and
non-zero), `wchar2ToString` fails with an invalid surrogate pair at position `k`, the
0-based index of the high surrogate, and an empty string. -/
theorem wchar2ToString_unpaired_high_position (pre t : List Int) (hi nx : Int)
    (hwf : wellFormedUtf16 pre = true) (hunits : ∀ u ∈ pre, 0 < u ∧ u ≤ 0xFFFF)
    (hhigh : isHighSurrogate hi = true) (hnext : isLowSurrogate nx = false) :
    wchar2ToString (pre ++ [hi] ++ [nx] ++ t) =
      some ("", some (WcharError.invalidSurrogatePair pre.length)) := by
  have hb : pre ++ [hi] ++ [nx] ++ t = pre ++ hi :: nx :: t := by simp
  have hhr : 0xD800 ≤ hi ∧ hi ≤ 0xDBFF := by simpa [isHighSurrogate] using hhigh
  have hnl : ¬ (0xDC00 ≤ nx ∧ nx ≤ 0xDFFF) := by simpa [isLowSurrogate] using hnext
  rw [hb]
  exact wchar2ToString_of_bad pre t hi nx hwf hunits (by omega)
    (by simp only [isSurrogate, decide_eq_true_eq]; omega) (decodeRune_bad hi nx (by omega))

theorem wchar2ToString_unpaired_high_position_witness :
    wellFormedUtf16 [0x41, 0xD83D, 0xDE00] = true ∧
    (∀ u ∈ [(0x41 : Int), 0xD83D, 0xDE00], 0 < u ∧ u ≤ 0xFFFF) ∧
    isHighSurrogate 0xD800 = true ∧ isLowSurrogate 0x41 = false ∧
    wchar2ToString ([0x41, 0xD83D, 0xDE00] ++ [0xD800] ++ [0x41] ++ [0]) =
      some ("", some (WcharError.invalidSurrogatePair [(0x41 : Int), 0xD83D, 0xDE00].length)) :=
  ⟨by decide, by decide, by decide, by decide,
    wchar2ToString_unpaired_high_position [0x41, 0xD83D, 0xDE00] [0] 0xD800 0x41
      (by decide) (by decide) (by decide) (by decide)⟩

/-! ## Theorems: single items and the parser's safety -/

/-- The reference fold of a descriptor that is exactly one complete item. -/
theorem referenceFold_single (p : Fin 256) (d : List (Fin 256))
    (hd : d.length = itemDataLength (p.val % 4)) :
    referenceFold (p :: d) =
      stepItem (0, 0) { typ := p.val / 4 % 4, tag := p.val / 16 % 16, value := littleEndian d } := by
  unfold referenceFold
  rw [decodeItems_cons, if_neg (by omega)]
  simp only [frontItem, ← hd, List.take_length, List.drop_length, decodeItems_nil,
    List.foldl_cons, List.foldl_nil]

/-- The reference fold of a complete item followed by more bytes. -/
theorem referenceFold_cons_item (p : Fin 256) (d b : List (Fin 256))
    (hd : d.length = itemDataLength (p.val % 4)) :
    referenceFold (p :: d ++ b) =
      (decodeItems b).foldl stepItem
        (stepItem (0, 0)
          { typ := p.val / 4 % 4, tag := p.val / 16 % 16, value := littleEndian d }) := by
  unfold referenceFold
  rw [List.cons_append, decodeItems_cons, if_neg (by rw [List.length_append]; omega)]
  simp only [frontItem, ← hd, List.take_left, List.drop_left, List.foldl_cons]

/-- C11: for every pair of non-zero bytes `p` and `u`, the parser returns `(p, u)` on
`[0x05, p, 0x09, u]`, a 1-byte Global Usage Page item followed by a 1-byte Local
Usage item; in particular `[0x05, 0x01, 0x09, 0x02]` gives `(1, 2)`. -/
theorem parseReportDescriptor_page_then_usage (p u : Fin 256) (hp : p ≠ 0) (hu : u ≠ 0) :
    parseReportDescriptor [0x05, p, 0x09, u] = some (p.val, u.val) ∧
    parseReportDescriptor [0x05, 0x01, 0x09, 0x02] = some (1, 2) := by
  refine ⟨?_, by decide⟩
  have hp0 : p.val ≠ 0 := fun h => hp (Fin.ext h)
  have hu0 : u.val ≠ 0 := fun h => hu (Fin.ext h)
  have v5 : ((0x05 : Fin 256) : Nat) = 5 := rfl
  have v9 : ((0x09 : Fin 256) : Nat) = 9 := rfl
  rw [parseReportDescriptor_eq]
  have h1 := referenceFold_cons_item 0x05 [p] [0x09, u] rfl
  have h2 : decodeItems [0x09, u] = [{ typ := 2, tag := 0, value := u.val }] := by
    have hlen : ¬ [u].length < itemDataLength ((0x09 : Fin 256).val % 4) := by
      show ¬ 1 < 1
      omega
    rw [decodeItems_cons, if_neg hlen]
    simp [frontItem, itemDataLength, littleEndian, decodeItems_nil, v9]
  have hlist : (0x05 : Fin 256) :: [p] ++ [0x09, u] = [0x05, p, 0x09, u] := rfl
  rw [hlist, h2] at h1
  rw [h1]
  have hpl := p.isLt
  have hul := u.isLt
  simp [stepItem, littleEndian, hp0, v5]
  omega

theorem parseReportDescriptor_page_then_usage_witness :
    (0x21 : Fin 256) ≠ 0 ∧ (0x06 : Fin 256) ≠ 0 ∧
    parseReportDescriptor [0x05, 0x21, 0x09, 0x06] =
      some ((0x21 : Fin 256).val, (0x06 : Fin 256).val) ∧
    parseReportDescriptor [0x05, 0x01, 0x09, 0x02] = some (1, 2) :=
  ⟨by decide, by decide, parseReportDescriptor_page_then_usage 0x21 0x06 (by decide) (by decide)⟩

theorem stepItem_zero_value (typ tag value : Nat) (htyp : typ = 1 ∨ typ = 2) (htag : tag = 0)
    (hzero : value % 2 ^ 16 = 0) :
    stepItem (0, 0) { typ := typ, tag := tag, value := value } = (0, 0) := by
  have hz : value % 65536 = 0 := hzero
  rcases htyp with h | h
  · simp [stepItem, h, htag, hz]
  · simp [stepItem, h, htag, hz]

/-- C12: zero is indistinguishable from unset: a complete Usage Page item (type 1,
tag 0) or Usage item (type 2, tag 0) whose value has low 16 bits 0, put in front of
any byte sequence `b`, does not change what the parser returns on `b`; in particular
`[0x05, 0x00, 0x05, 0x05]` yields `usagePage = 5`. -/
theorem parseReportDescriptor_zero_item_skipped (p : Fin 256) (d b : List (Fin 256))
    (hd : d.length = itemDataLength (p.val % 4))
    (htyp : p.val / 4 % 4 = 1 ∨ p.val / 4 % 4 = 2) (htag : p.val / 16 % 16 = 0)
    (hzero : littleEndian d % 2 ^ 16 = 0) :
    parseReportDescriptor (p :: d ++ b) = parseReportDescriptor b ∧
    parseReportDescriptor [0x05, 0x00, 0x05, 0x05] = some (5, 0) := by
  refine ⟨?_, by decide⟩
  rw [parseReportDescriptor_eq, parseReportDescriptor_eq, referenceFold_cons_item p d b hd,
    stepItem_zero_value _ _ _ htyp htag hzero]
  rfl

theorem parseReportDescriptor_zero_item_skipped_witness :
    [(0x00 : Fin 256), 0x00].length = itemDataLength ((0x0a : Fin 256).val % 4) ∧
    ((0x0a : Fin 256).val / 4 % 4 = 1 ∨ (0x0a : Fin 256).val / 4 % 4 = 2) ∧
    (0x0a : Fin 256).val / 16 % 16 = 0 ∧
    littleEndian [(0x00 : Fin 256), 0x00] % 2 ^ 16 = 0 ∧
    parseReportDescriptor ((0x0a : Fin 256) :: [0x00, 0x00] ++ [0x09, 0x06, 0x05, 0x01]) =
      parseReportDescriptor [0x09, 0x06, 0x05, 0x01] ∧
    parseReportDescriptor [0x05, 0x00, 0x05, 0x05] = some (5, 0) :=
  ⟨by decide, by decide, by decide, by decide,
    parseReportDescriptor_zero_item_skipped 0x0a [0x00, 0x00] [0x09, 0x06, 0x05, 0x01]
      (by decide) (by decide) (by decide) (by decide)⟩

/-- C13: for every byte sequence `b` the parser returns a pair: no index or re-slice
it performs (the prefix read `b[0]`, the data reads `b[i]`, the re-slicings `b[1:]`
and `b[size:]`, each of which is `none` here when out of bounds) leaves the remaining
slice. The same holds for the loop from any state with any fuel above `len(b)`. -/
theorem parseReportDescriptor_never_panics (b : List (Fin 256)) (extra pg us : Nat) :
    (∃ p u, parseReportDescriptor b = some (p, u)) ∧
    (∃ p u, parseLoop (b.length + 1 + extra) b pg us = some (p, u)) :=
  ⟨⟨_, _, parseReportDescriptor_eq b⟩,
    ⟨_, _, parseLoop_eq_fold (b.length + 1 + extra) b pg us (by omega)⟩⟩

/-- The little-endian value as the sum of the bytes weighted by powers of 256. -/
theorem littleEndian_eq_sum (d : List (Fin 256)) :
    littleEndian d =
      Finset.sum Finset.univ (fun i : Fin d.length => (d.get i).val * 256 ^ i.val) := by
  induction d with
  | nil => simp [littleEndian]
  | cons x xs ih =>
    rw [littleEndian, ih]
    simp only [List.length_cons]
    rw [Fin.sum_univ_succ]
    simp only [Fin.val_zero, pow_zero, mul_one, List.get_cons_zero, Fin.val_succ]
    rw [Finset.mul_sum]
    congr 1
    apply Finset.sum_congr rfl
    intro i _
    have hget : (x :: xs).get i.succ = xs.get i := rfl
    rw [hget, pow_succ]
    ring

theorem usage_page_prefix_bits (c : Nat) (p : Fin 256) (hc : c < 4) (hp : p.val = 0x04 ||| c) :
    p.val % 4 = c ∧ p.val / 4 % 4 = 1 ∧ p.val / 16 % 16 = 0 := by
  interval_cases c <;> simp at hp <;> omega

theorem usage_prefix_bits (c : Nat) (p : Fin 256) (hc : c < 4) (hp : p.val = 0x08 ||| c) :
    p.val % 4 = c ∧ p.val / 4 % 4 = 2 ∧ p.val / 16 % 16 = 0 := by
  interval_cases c <;> simp at hp <;> omega

theorem referenceFold_usage_page_item (p : Fin 256) (d : List (Fin 256))
    (hd : d.length = itemDataLength (p.val % 4)) (htyp : p.val / 4 % 4 = 1)
    (htag : p.val / 16 % 16 = 0) :
    referenceFold (p :: d) = (littleEndian d % 65536, 0) := by
  rw [referenceFold_single p d hd]
  simp [stepItem, htyp, htag]

theorem referenceFold_usage_item (p : Fin 256) (d : List (Fin 256))
    (hd : d.length = itemDataLength (p.val % 4)) (htyp : p.val / 4 % 4 = 2)
    (htag : p.val / 16 % 16 = 0) :
    referenceFold (p :: d) = (0, littleEndian d % 65536) := by
  rw [referenceFold_single p d hd]
  simp [stepItem, htyp, htag]

theorem littleEndian_four_low16 (d0 d1 d2 d3 : Fin 256) :
    littleEndian [d0, d1, d2, d3] % 65536 = d0.val + 256 * d1.val := by
  have h0 := d0.isLt
  have h1 := d1.isLt
  simp only [littleEndian]
  omega

/-- C15: for every size code `c` in 0..3, with data length 0, 1, 2, 4 (code 3 means 4
bytes), and every data byte sequence `d` of that length, the single Global Usage Page
item `[0x04 | c] ++ d` parses to `((sum of d[i] * 256^i) mod 65536, 0)` and the single
Local Usage item `[0x08 | c] ++ d` parses to `(0, (sum of d[i] * 256^i) mod 65536)`;
for four data bytes only `d[0]` and `d[1]` determine the result. -/
theorem parseReportDescriptor_single_item_value (c : Nat) (pg us : Fin 256)
    (d : List (Fin 256)) (hc : c < 4) (hpg : pg.val = 0x04 ||| c) (hus : us.val = 0x08 ||| c)
    (hd : d.length = itemDataLength c) :
    parseReportDescriptor (pg :: d) =
      some (Finset.sum Finset.univ (fun i : Fin d.length => (d.get i).val * 256 ^ i.val)
        % 65536, 0) ∧
    parseReportDescriptor (us :: d) =
      some (0, Finset.sum Finset.univ (fun i : Fin d.length => (d.get i).val * 256 ^ i.val)
        % 65536) ∧
    itemDataLength 3 = 4 ∧
    ∀ d0 d1 d2 d3 : Fin 256,
      parseReportDescriptor [0x07, d0, d1, d2, d3] = some (d0.val + 256 * d1.val, 0) ∧
      parseReportDescriptor [0x0b, d0, d1, d2, d3] = some (0, d0.val + 256 * d1.val) := by
  obtain ⟨hp1, hp2, hp3⟩ := usage_page_prefix_bits c pg hc hpg
  obtain ⟨hu1, hu2, hu3⟩ := usage_prefix_bits c us hc hus
  refine ⟨?_, ?_, rfl, ?_⟩
  · rw [parseReportDescriptor_eq, referenceFold_usage_page_item pg d (by rw [hp1]; exact hd) hp2 hp3,
      littleEndian_eq_sum]
  · rw [parseReportDescriptor_eq, referenceFold_usage_item us d (by rw [hu1]; exact hd) hu2 hu3,
      littleEndian_eq_sum]
  · intro d0 d1 d2 d3
    constructor
    · rw [parseReportDescriptor_eq, referenceFold_usage_page_item 0x07 [d0, d1, d2, d3] rfl rfl rfl,
        littleEndian_four_low16]
    · rw [parseReportDescriptor_eq, referenceFold_usage_item 0x0b [d0, d1, d2, d3] rfl rfl rfl,
        littleEndian_four_low16]

theorem parseReportDescriptor_single_item_value_witness :
    (3 : Nat) < 4 ∧ (0x07 : Fin 256).val = 0x04 ||| 3 ∧ (0x0b : Fin 256).val = 0x08 ||| 3 ∧
    [(0x34 : Fin 256), 0x12, 0xff, 0xff].length = itemDataLength 3 ∧
    parseReportDescriptor ((0x07 : Fin 256) :: [0x34, 0x12, 0xff, 0xff]) =
      some (Finset.sum Finset.univ
        (fun i : Fin [(0x34 : Fin 256), 0x12, 0xff, 0xff].length =>
          ([(0x34 : Fin 256), 0x12, 0xff, 0xff].get i).val * 256 ^ i.val) % 65536, 0) ∧
    parseReportDescriptor ((0x0b : Fin 256) :: [0x34, 0x12, 0xff, 0xff]) =
      some (0, Finset.sum Finset.univ
        (fun i : Fin [(0x34 : Fin 256), 0x12, 0xff, 0xff].length =>
          ([(0x34 : Fin 256), 0x12, 0xff, 0xff].get i).val * 256 ^ i.val) % 65536) ∧
    itemDataLength 3 = 4 ∧
    ∀ d0 d1 d2 d3 : Fin 256,
      parseReportDescriptor [0x07, d0, d1, d2, d3] = some (d0.val + 256 * d1.val, 0) ∧
      parseReportDescriptor [0x0b, d0, d1, d2, d3] = some (0, d0.val + 256 * d1.val) :=
  ⟨by decide, by decide, by decide, by decide,
    parseReportDescriptor_single_item_value 3 0x07 0x0b [0x34, 0x12, 0xff, 0xff]
      (by decide) (by decide) (by decide) (by decide)⟩

/-! ## Theorems: device control requests -/

/-- The value of `ioc` on in-range arguments: the four fields side by side. -/
theorem ioc_eq_sum (dir t nr size : Nat) (hdir : dir < 4) (ht : t < 2 ^ 8) (hnr : nr < 2 ^ 8)
    (hsize : size < 2 ^ 14) :
    ioc dir t nr size = dir * 2 ^ 30 + size * 2 ^ 16 + t * 2 ^ 8 + nr := by
  have e8 : (2 : Nat) ^ 8 = 256 := by norm_num
  have e14 : (2 : Nat) ^ 14 = 16384 := by norm_num
  have e16 : (2 : Nat) ^ 16 = 65536 := by norm_num
  have e30 : (2 : Nat) ^ 30 = 1073741824 := by norm_num
  have e64 : (2 : Nat) ^ 64 = 18446744073709551616 := by norm_num
  have s1 : directionShift = 30 := rfl
  have s2 : typeShift = 8 := rfl
  have s3 : numberShift = 0 := rfl
  have s4 : sizeShift = 16 := rfl
  unfold ioc
  rw [s1, s2, s3, s4]
  simp only [Nat.shiftLeft_eq, Nat.pow_zero, Nat.mul_one]
  have m1 : dir * 2 ^ 30 % 2 ^ 64 = 2 ^ 30 * dir := by
    rw [Nat.mod_eq_of_lt (by omega), Nat.mul_comm]
  have m2 : t * 2 ^ 8 % 2 ^ 64 = 2 ^ 8 * t := by
    rw [Nat.mod_eq_of_lt (by omega), Nat.mul_comm]
  have m3 : nr % 2 ^ 64 = nr := Nat.mod_eq_of_lt (by omega)
  have m4 : size * 2 ^ 16 % 2 ^ 64 = 2 ^ 16 * size := by
    rw [Nat.mod_eq_of_lt (by omega), Nat.mul_comm]
  rw [m1, m2, m3, m4]
  have o1 : 2 ^ 8 * t ||| nr = 2 ^ 8 * t + nr := (Nat.mul_add_lt_is_or hnr t).symm
  have o2 : 2 ^ 16 * size ||| (2 ^ 8 * t + nr) = 2 ^ 16 * size + (2 ^ 8 * t + nr) :=
    (Nat.mul_add_lt_is_or (by omega) size).symm
  have o3 : 2 ^ 30 * dir ||| (2 ^ 16 * size + (2 ^ 8 * t + nr)) =
      2 ^ 30 * dir + (2 ^ 16 * size + (2 ^ 8 * t + nr)) :=
    (Nat.mul_add_lt_is_or (by omega) dir).symm
  have hre : 2 ^ 30 * dir ||| 2 ^ 8 * t ||| nr ||| 2 ^ 16 * size =
      2 ^ 30 * dir ||| (2 ^ 16 * size ||| (2 ^ 8 * t ||| nr)) := by
    rw [Nat.lor_assoc, Nat.lor_assoc, ← Nat.lor_assoc (2 ^ 8 * t) nr,
      Nat.lor_comm (2 ^ 8 * t ||| nr) (2 ^ 16 * size)]
  rw [hre, o1, o2, o3]
  omega

/-- C19: for in-range arguments (`dir < 4`, `t < 2^8`, `nr < 2^8`, `size < 2^14`)
`ioc dir t nr size = dir*2^30 + size*2^16 + t*2^8 + nr`; the four fields occupy
disjoint bit ranges (each is read back from its own bits), so `ioc` is injective on
in-range arguments; `ioR t nr size = ioc 2 t nr size`; and with `sizeof(int) = 4` the
descriptor-size request `ioR('H', 0x01, 4)` is `0x80044801`. -/
theorem ioc_fields (dir t nr size dir2 t2 nr2 size2 : Nat)
    (hdir : dir < 4) (ht : t < 2 ^ 8) (hnr : nr < 2 ^ 8) (hsize : size < 2 ^ 14)
    (hdir2 : dir2 < 4) (ht2 : t2 < 2 ^ 8) (hnr2 : nr2 < 2 ^ 8) (hsize2 : size2 < 2 ^ 14) :
    ioc dir t nr size = dir * 2 ^ 30 + size * 2 ^ 16 + t * 2 ^ 8 + nr ∧
    ioc dir t nr size / 2 ^ 30 = dir ∧
    ioc dir t nr size / 2 ^ 16 % 2 ^ 14 = size ∧
    ioc dir t nr size / 2 ^ 8 % 2 ^ 8 = t ∧
    ioc dir t nr size % 2 ^ 8 = nr ∧
    (ioc dir t nr size = ioc dir2 t2 nr2 size2 →
      dir = dir2 ∧ t = t2 ∧ nr = nr2 ∧ size = size2) ∧
    ioR t nr size = ioc 2 t nr size ∧
    ioctlHIDIOCGRDESCSIZE 4 = 0x80044801 := by
  have h1 := ioc_eq_sum dir t nr size hdir ht hnr hsize
  have h2 := ioc_eq_sum dir2 t2 nr2 size2 hdir2 ht2 hnr2 hsize2
  have e8 : (2 : Nat) ^ 8 = 256 := by norm_num
  have e14 : (2 : Nat) ^ 14 = 16384 := by norm_num
  have e16 : (2 : Nat) ^ 16 = 65536 := by norm_num
  have e30 : (2 : Nat) ^ 30 = 1073741824 := by norm_num
  rw [e8] at ht hnr ht2 hnr2
  rw [e14] at hsize hsize2
  rw [e8, e16, e30] at h1 h2
  rw [e8, e14, e16, e30]
  refine ⟨h1, ?_, ?_, ?_, ?_, ?_, rfl, by decide⟩
  · rw [h1]; omega
  · rw [h1]; omega
  · rw [h1]; omega
  · rw [h1]; omega
  · intro heq
    rw [h1, h2] at heq
    omega

theorem ioc_fields_witness :
    (2 : Nat) < 4 ∧ (0x48 : Nat) < 2 ^ 8 ∧ (0x02 : Nat) < 2 ^ 8 ∧ (4100 : Nat) < 2 ^ 14 ∧
    (3 : Nat) < 4 ∧ (0x55 : Nat) < 2 ^ 8 ∧ (0x01 : Nat) < 2 ^ 8 ∧ (8 : Nat) < 2 ^ 14 ∧
    ioc 2 0x48 0x02 4100 = 2 * 2 ^ 30 + 4100 * 2 ^ 16 + 0x48 * 2 ^ 8 + 0x02 ∧
    ioc 2 0x48 0x02 4100 / 2 ^ 30 = 2 ∧
    ioc 2 0x48 0x02 4100 / 2 ^ 16 % 2 ^ 14 = 4100 ∧
    ioc 2 0x48 0x02 4100 / 2 ^ 8 % 2 ^ 8 = 0x48 ∧
    ioc 2 0x48 0x02 4100 % 2 ^ 8 = 0x02 ∧
    (ioc 2 0x48 0x02 4100 = ioc 3 0x55 0x01 8 →
      2 = 3 ∧ 0x48 = 0x55 ∧ 0x02 = 0x01 ∧ 4100 = 8) ∧
    ioR 0x48 0x02 4100 = ioc 2 0x48 0x02 4100 ∧
    ioctlHIDIOCGRDESCSIZE 4 = 0x80044801 :=
  ⟨by decide, by decide, by decide, by decide, by decide, by decide, by decide, by decide,
    ioc_fields 2 0x48 0x02 4100 3 0x55 0x01 8 (by decide) (by decide) (by decide) (by decide)
      (by decide) (by decide) (by decide) (by decide)⟩

/-! ## Theorems: width dispatch, reads and error kinds of the decoders -/

/-- C16 (as stated, refuted): with the unsupported width 3 and the null buffer,
`wcharTToString` does not panic: it returns the empty string and no error. -/
theorem wcharTToString_nil_unsupported_width :
    wcharTToString 3 none = WcharTResult.returned "" none ∧
    wcharTToString 3 none ≠ WcharTResult.panicked 3 := by
  constructor <;> decide

/-- C16 (amended): for every width other than 2 and 4 and every non-null buffer,
`wcharTToString` panics (with the width in the message) instead of returning a string
or an error; on the null buffer it returns the empty string and no error, whatever
the width (2 and 4 included). -/
theorem wcharTToString_unsupported_width (w : Nat) (buf : List Int) :
    (w ≠ 2 → w ≠ 4 → wcharTToString w (some buf) = WcharTResult.panicked w) ∧
    wcharTToString w none = WcharTResult.returned "" none := by
  constructor
  · intro h2 h4
    simp [wcharTToString, h2, h4]
  · rfl

theorem wcharTToString_unsupported_width_witness :
    ((1 : Nat) ≠ 2 ∧ (1 : Nat) ≠ 4 ∧
      wcharTToString 1 (some [0x41, 0]) = WcharTResult.panicked 1) ∧
    wcharTToString 1 none = WcharTResult.returned "" none ∧
    wcharTToString 2 none = WcharTResult.returned "" none ∧
    wcharTToString 4 none = WcharTResult.returned "" none :=
  ⟨⟨by decide, by decide,
      (wcharTToString_unsupported_width 1 [0x41, 0]).1 (by decide) (by decide)⟩,
    (wcharTToString_unsupported_width 1 [0x41, 0]).2,
    (wcharTToString_unsupported_width 2 []).2,
    (wcharTToString_unsupported_width 4 []).2⟩

theorem validRune_of_unit16 (u : Int) (h0 : 0 ≤ u) (h1 : u ≤ 0xFFFF)
    (hs : isSurrogate u = false) : validRune u = true := by
  have hns : ¬ (0xd800 ≤ u ∧ u < 0xe000) := by simpa [isSurrogate] using hs
  rw [validRune_iff]
  omega

theorem isSurrogate_of_high_or_low (u : Int)
    (h : isHighSurrogate u = true ∨ isLowSurrogate u = true) : isSurrogate u = true := by
  simp only [isSurrogate, decide_eq_true_eq]
  rcases h with h | h
  · have : 0xD800 ≤ u ∧ u ≤ 0xDBFF := by simpa [isHighSurrogate] using h
    omega
  · have : 0xDC00 ≤ u ∧ u ≤ 0xDFFF := by simpa [isLowSurrogate] using h
    omega

/-- On 16-bit units every error the 2-byte loop returns is an invalid surrogate
pair. -/
theorem wchar2Loop_error_kind (s : List Int) (hunits : ∀ u ∈ s, 0 ≤ u ∧ u ≤ 0xFFFF) :
    ∀ (fuel i : Nat) (res str : String) (e : WcharError),
      wchar2Loop s fuel i res = some (str, some e) →
      ∃ k, e = WcharError.invalidSurrogatePair k := by
  intro fuel
  induction fuel with
  | zero =>
    intro i res str e h
    simp [wchar2Loop] at h
  | succ fuel ih =>
    intro i res str e h
    rw [wchar2Loop] at h
    cases hg : gowchar_get s i with
    | none => simp [hg] at h
    | some ch =>
      have hch := hunits ch (List.getElem?_mem hg)
      by_cases h0 : ch = 0
      · simp [hg, h0] at h
      · by_cases hs : isSurrogate ch = true
        · cases hg2 : gowchar_get s (i + 1) with
          | none => simp [hg, h0, hs, hg2] at h
          | some ch2 =>
            by_cases hd : decodeRune ch ch2 = 0xFFFD
            · simp [hg, h0, hs, hg2, hd] at h
              exact ⟨i, h.2.symm⟩
            · simp [hg, h0, hs, hg2, hd] at h
              exact ih _ _ _ _ h
        · have hs' : isSurrogate ch = false := by simpa using hs
          have hv := validRune_of_unit16 ch hch.1 hch.2 hs'
          simp [hg, h0, hs', hv] at h
          exact ih _ _ _ _ h

/-- C18: in the 2-byte strategy with units in [0, 0xFFFF] the invalid-rune branch is
unreachable: `wchar2ToString` never returns an invalid-rune error, every error it
returns is an invalid-surrogate-pair error, every non-surrogate 16-bit unit is a valid
rune, and every high or low surrogate is a surrogate for `utf16.IsSurrogate`, which
routes it to the pairing branch. -/
theorem wchar2ToString_never_invalid_rune (s : List Int) (h : ∀ u ∈ s, 0 ≤ u ∧ u ≤ 0xFFFF) :
    (∀ str k, wchar2ToString s ≠ some (str, some (WcharError.invalidRune k))) ∧
    (∀ str e, wchar2ToString s = some (str, some e) →
      ∃ k, e = WcharError.invalidSurrogatePair k) ∧
    (∀ u : Int, 0 ≤ u → u ≤ 0xFFFF → isSurrogate u = false → validRune u = true) ∧
    (∀ u : Int, isHighSurrogate u = true ∨ isLowSurrogate u = true →
      isSurrogate u = true) := by
  refine ⟨?_, ?_, validRune_of_unit16, isSurrogate_of_high_or_low⟩
  · intro str k hres
    obtain ⟨j, hj⟩ := wchar2Loop_error_kind s h _ _ _ _ _ hres
    cases hj
  · intro str e hres
    exact wchar2Loop_error_kind s h _ _ _ _ _ hres

theorem wchar2ToString_never_invalid_rune_witness :
    (∀ u ∈ [(0x41 : Int), 0xFFFF, 0xDC00, 0x42, 0], 0 ≤ u ∧ u ≤ 0xFFFF) ∧
    (∀ str k, wchar2ToString [0x41, 0xFFFF, 0xDC00, 0x42, 0] ≠
      some (str, some (WcharError.invalidRune k))) ∧
    (∀ str e, wchar2ToString [0x41, 0xFFFF, 0xDC00, 0x42, 0] = some (str, some e) →
      ∃ k, e = WcharError.invalidSurrogatePair k) ∧
    (∀ u : Int, 0 ≤ u → u ≤ 0xFFFF → isSurrogate u = false → validRune u = true) ∧
    (∀ u : Int, isHighSurrogate u = true ∨ isLowSurrogate u = true →
      isSurrogate u = true) :=
  ⟨by decide, wchar2ToString_never_invalid_rune [0x41, 0xFFFF, 0xDC00, 0x42, 0] (by decide)⟩

/-- The recorded loop returns what the 2-byte loop returns. -/
theorem wchar2LoopTraced_fst (s : List Int) :
    ∀ (fuel i : Nat) (res : String) (reads : List Nat),
      (wchar2LoopTraced s fuel i res reads).1 = wchar2Loop s fuel i res := by
  intro fuel
  induction fuel with
  | zero => intro i res reads; rfl
  | succ fuel ih =>
    intro i res reads
    rw [wchar2LoopTraced, wchar2Loop]
    cases hg : gowchar_get s i with
    | none => rfl
    | some ch =>
      by_cases h0 : ch = 0
      · simp [h0]
      · by_cases hs : isSurrogate ch = true
        · cases hg2 : gowchar_get s (i + 1) with
          | none => simp [h0, hs, hg2]
          | some ch2 =>
            by_cases hd : decodeRune ch ch2 = 0xFFFD
            · simp [h0, hs, hg2, hd]
            · simp [h0, hs, hg2, hd, ih]
        · have hs' : isSurrogate ch = false := by simpa using hs
          by_cases hv : validRune ch = true
          · simp [h0, hs', hv, ih]
          · have hv' : validRune ch = false := by simpa using hv
            simp [h0, hs', hv']

/-- The recorded loop returns what the 4-byte loop returns. -/
theorem wchar4LoopTraced_fst (s : List Int) :
    ∀ (fuel i : Nat) (res : String) (reads : List Nat),
      (wchar4LoopTraced s fuel i res reads).1 = wchar4Loop s fuel i res := by
  intro fuel
  induction fuel with
  | zero => intro i res reads; rfl
  | succ fuel ih =>
    intro i res reads
    rw [wchar4LoopTraced, wchar4Loop]
    cases hg : gowchar_get s i with
    | none => rfl
    | some ch =>
      by_cases h0 : ch = 0
      · simp [h0]
      · by_cases hv : validRune ch = true
        · simp [h0, hv, ih]
        · have hv' : validRune ch = false := by simpa using hv
          simp [h0, hv']

/-- A read at or before the first zero unit of a buffer: the zero unit at its index,
a non-zero unit before it. -/
theorem gowchar_get_terminated (pre t : List Int) (h : ∀ u ∈ pre, u ≠ 0) (i : Nat)
    (hi : i ≤ pre.length) :
    (i = pre.length ∧ gowchar_get (pre ++ 0 :: t) i = some 0) ∨
    (i < pre.length ∧ ∃ u, gowchar_get (pre ++ 0 :: t) i = some u ∧ u ≠ 0) := by
  by_cases hlt : i < pre.length
  · right
    refine ⟨hlt, pre[i], ?_, h _ (List.getElem_mem _)⟩
    unfold gowchar_get
    rw [List.getElem?_append_left hlt, List.getElem?_eq_getElem hlt]
  · left
    have heq : i = pre.length := by omega
    refine ⟨heq, ?_⟩
    rw [heq]
    exact gowchar_get_first pre t 0

theorem mem_reads_snoc (reads : List Nat) (i z : Nat) (hi : i ≤ z) :
    ∀ k ∈ reads ++ [i], k ∈ reads ∨ k ≤ z := by
  intro k hk
  rcases List.mem_append.mp hk with hk | hk
  · exact Or.inl hk
  · right
    have : k = i := by simpa using hk
    omega

theorem mem_reads_of_snoc (reads : List Nat) (i z k : Nat) (hi : i ≤ z)
    (hk : k ∈ reads ++ [i] ∨ k ≤ z) : k ∈ reads ∨ k ≤ z := by
  rcases hk with hk | hk
  · exact mem_reads_snoc reads i z hi k hk
  · exact Or.inr hk

/-- From a position at or before the first zero unit, with enough fuel, the recorded
2-byte loop returns and records no position after the first zero unit. -/
theorem wchar2LoopTraced_bound (pre t : List Int) (h : ∀ u ∈ pre, u ≠ 0) :
    ∀ (fuel i : Nat) (res : String) (reads : List Nat),
      i ≤ pre.length → pre.length - i < fuel →
      (wchar2LoopTraced (pre ++ 0 :: t) fuel i res reads).1.isSome = true ∧
      ∀ k ∈ (wchar2LoopTraced (pre ++ 0 :: t) fuel i res reads).2,
        k ∈ reads ∨ k ≤ pre.length := by
  intro fuel
  induction fuel with
  | zero => intro i res reads _ hf; omega
  | succ fuel ih =>
    intro i res reads hi hf
    rcases gowchar_get_terminated pre t h i hi with ⟨_, hg⟩ | ⟨hlt, u, hg, hu⟩
    · have hstep : wchar2LoopTraced (pre ++ 0 :: t) (fuel + 1) i res reads =
          (some (res, none), reads ++ [i]) := by
        rw [wchar2LoopTraced]; simp [hg]
      rw [hstep]
      exact ⟨rfl, mem_reads_snoc reads i _ hi⟩
    · by_cases hs : isSurrogate u = true
      · rcases gowchar_get_terminated pre t h (i + 1) (by omega) with
          ⟨_, hg2⟩ | ⟨hlt2, u2, hg2, hu2⟩
        · have hd : decodeRune u 0 = 0xFFFD := decodeRune_bad u 0 (by omega)
          have hstep : wchar2LoopTraced (pre ++ 0 :: t) (fuel + 1) i res reads =
              (some ("", some (WcharError.invalidSurrogatePair i)), reads ++ [i] ++ [i + 1]) := by
            rw [wchar2LoopTraced]; simp [hg, hu, hs, hg2, hd]
          rw [hstep]
          refine ⟨rfl, fun k hk => ?_⟩
          exact mem_reads_of_snoc reads i _ k hi
            (mem_reads_snoc (reads ++ [i]) (i + 1) _ (by omega) k hk)
        · by_cases hd : decodeRune u u2 = 0xFFFD
          · have hstep : wchar2LoopTraced (pre ++ 0 :: t) (fuel + 1) i res reads =
                (some ("", some (WcharError.invalidSurrogatePair i)),
                  reads ++ [i] ++ [i + 1]) := by
              rw [wchar2LoopTraced]; simp [hg, hu, hs, hg2, hd]
            rw [hstep]
            refine ⟨rfl, fun k hk => ?_⟩
            exact mem_reads_of_snoc reads i _ k hi
              (mem_reads_snoc (reads ++ [i]) (i + 1) _ (by omega) k hk)
          · have hstep : wchar2LoopTraced (pre ++ 0 :: t) (fuel + 1) i res reads =
                wchar2LoopTraced (pre ++ 0 :: t) fuel (i + 1 + 1)
                  (res ++ runeToString (decodeRune u u2)) (reads ++ [i] ++ [i + 1]) := by
              rw [wchar2LoopTraced]; simp [hg, hu, hs, hg2, hd]
            rw [hstep]
            obtain ⟨hsome, hreads⟩ := ih (i + 1 + 1) (res ++ runeToString (decodeRune u u2))
              (reads ++ [i] ++ [i + 1]) (by omega) (by omega)
            refine ⟨hsome, fun k hk => ?_⟩
            exact mem_reads_of_snoc reads i _ k hi
              (mem_reads_of_snoc (reads ++ [i]) (i + 1) _ k (by omega) (hreads k hk))
      · have hs' : isSurrogate u = false := by simpa using hs
        by_cases hv : validRune u = true
        · have hstep : wchar2LoopTraced (pre ++ 0 :: t) (fuel + 1) i res reads =
              wchar2LoopTraced (pre ++ 0 :: t) fuel (i + 1) (res ++ runeToString u)
                (reads ++ [i]) := by
            rw [wchar2LoopTraced]; simp [hg, hu, hs', hv]
          rw [hstep]
          obtain ⟨hsome, hreads⟩ := ih (i + 1) (res ++ runeToString u) (reads ++ [i])
            (by omega) (by omega)
          exact ⟨hsome, fun k hk => mem_reads_of_snoc reads i _ k hi (hreads k hk)⟩
        · have hv' : validRune u = false := by simpa using hv
          have hstep : wchar2LoopTraced (pre ++ 0 :: t) (fuel + 1) i res reads =
              (some ("", some (WcharError.invalidRune (i + 1))), reads ++ [i]) := by
            rw [wchar2LoopTraced]; simp [hg, hu, hs', hv']
          rw [hstep]
          exact ⟨rfl, mem_reads_snoc reads i _ hi⟩

/-- From a position at or before the first zero unit, with enough fuel, the recorded
4-byte loop returns and records no position after the first zero unit. -/
theorem wchar4LoopTraced_bound (pre t : List Int) (h : ∀ u ∈ pre, u ≠ 0) :
    ∀ (fuel i : Nat) (res : String) (reads : List Nat),
      i ≤ pre.length → pre.length - i < fuel →
      (wchar4LoopTraced (pre ++ 0 :: t) fuel i res reads).1.isSome = true ∧
      ∀ k ∈ (wchar4LoopTraced (pre ++ 0 :: t) fuel i res reads).2,
        k ∈ reads ∨ k ≤ pre.length := by
  intro fuel
  induction fuel with
  | zero => intro i res reads _ hf; omega
  | succ fuel ih =>
    intro i res reads hi hf
    rcases gowchar_get_terminated pre t h i hi with ⟨_, hg⟩ | ⟨hlt, u, hg, hu⟩
    · have hstep : wchar4LoopTraced (pre ++ 0 :: t) (fuel + 1) i res reads =
          (some (res, none), reads ++ [i]) := by
        rw [wchar4LoopTraced]; simp [hg]
      rw [hstep]
      exact ⟨rfl, mem_reads_snoc reads i _ hi⟩
    · by_cases hv : validRune u = true
      · have hstep : wchar4LoopTraced (pre ++ 0 :: t) (fuel + 1) i res reads =
            wchar4LoopTraced (pre ++ 0 :: t) fuel (i + 1) (res ++ runeToString u)
              (reads ++ [i]) := by
          rw [wchar4LoopTraced]; simp [hg, hu, hv]
        rw [hstep]
        obtain ⟨hsome, hreads⟩ := ih (i + 1) (res ++ runeToString u) (reads ++ [i])
          (by omega) (by omega)
        exact ⟨hsome, fun k hk => mem_reads_of_snoc reads i _ k hi (hreads k hk)⟩
      · have hv' : validRune u = false := by simpa using hv
        have hstep : wchar4LoopTraced (pre ++ 0 :: t) (fuel + 1) i res reads =
            (some ("", some (WcharError.invalidRune i)), reads ++ [i]) := by
          rw [wchar4LoopTraced]; simp [hg, hu, hv']
        rw [hstep]
        exact ⟨rfl, mem_reads_snoc reads i _ hi⟩

/-- C17: neither decoder reads past the terminator. For every buffer whose first zero
unit is at index `z` (`pre` holds the `z` units before it), the recorded run of each
decoder returns what the decoder returns, every position it reads (the look-ahead
read after a surrogate included) is at most `z`, and the decoder returns, never
leaving the buffer; a pairing that succeeds has a non-zero second unit, so a consumed
pair never skips the terminating zero. -/
theorem wchar_reads_within_terminator (pre t : List Int) (h : ∀ u ∈ pre, u ≠ 0) :
    (wchar2ToStringTraced (pre ++ [0] ++ t)).1 = wchar2ToString (pre ++ [0] ++ t) ∧
    (∀ k ∈ (wchar2ToStringTraced (pre ++ [0] ++ t)).2, k ≤ pre.length) ∧
    (wchar2ToString (pre ++ [0] ++ t)).isSome = true ∧
    (wchar4ToStringTraced (pre ++ [0] ++ t)).1 = wchar4ToString (pre ++ [0] ++ t) ∧
    (∀ k ∈ (wchar4ToStringTraced (pre ++ [0] ++ t)).2, k ≤ pre.length) ∧
    (wchar4ToString (pre ++ [0] ++ t)).isSome = true ∧
    (∀ r1 r2 : Int, decodeRune r1 r2 ≠ 0xFFFD → r2 ≠ 0) := by
  have hbuf : pre ++ [0] ++ t = pre ++ 0 :: t := by simp
  have hfuel : pre.length - 0 < (pre ++ 0 :: t).length + 1 := by
    simp only [List.length_append, List.length_cons]; omega
  have h2 := wchar2LoopTraced_bound pre t h ((pre ++ 0 :: t).length + 1) 0 "" []
    (Nat.zero_le _) hfuel
  have h4 := wchar4LoopTraced_bound pre t h ((pre ++ 0 :: t).length + 1) 0 "" []
    (Nat.zero_le _) hfuel
  have f2 := wchar2LoopTraced_fst (pre ++ 0 :: t) ((pre ++ 0 :: t).length + 1) 0 "" []
  have f4 := wchar4LoopTraced_fst (pre ++ 0 :: t) ((pre ++ 0 :: t).length + 1) 0 "" []
  rw [hbuf]
  refine ⟨f2, ?_, ?_, f4, ?_, ?_, ?_⟩
  · intro k hk
    rcases h2.2 k hk with hk0 | hk0
    · exact absurd hk0 (List.not_mem_nil k)
    · exact hk0
  · have := h2.1
    rw [f2] at this
    exact this
  · intro k hk
    rcases h4.2 k hk with hk0 | hk0
    · exact absurd hk0 (List.not_mem_nil k)
    · exact hk0
  · have := h4.1
    rw [f4] at this
    exact this
  · intro r1 r2 hd h0
    apply hd
    rw [h0]
    exact decodeRune_bad r1 0 (by omega)

theorem wchar_reads_within_terminator_witness :
    (∀ u ∈ [(0x41 : Int), 0xD83D, 0xDE00, 0xD800], u ≠ 0) ∧
    (wchar2ToStringTraced ([0x41, 0xD83D, 0xDE00, 0xD800] ++ [0] ++ [7, 8])).1 =
      wchar2ToString ([0x41, 0xD83D, 0xDE00, 0xD800] ++ [0] ++ [7, 8]) ∧
    (∀ k ∈ (wchar2ToStringTraced ([0x41, 0xD83D, 0xDE00, 0xD800] ++ [0] ++ [7, 8])).2,
      k ≤ [(0x41 : Int), 0xD83D, 0xDE00, 0xD800].length) ∧
    (wchar2ToString ([0x41, 0xD83D, 0xDE00, 0xD800] ++ [0] ++ [7, 8])).isSome = true ∧
    (wchar4ToStringTraced ([0x41, 0xD83D, 0xDE00, 0xD800] ++ [0] ++ [7, 8])).1 =
      wchar4ToString ([0x41, 0xD83D, 0xDE00, 0xD800] ++ [0] ++ [7, 8]) ∧
    (∀ k ∈ (wchar4ToStringTraced ([0x41, 0xD83D, 0xDE00, 0xD800] ++ [0] ++ [7, 8])).2,
      k ≤ [(0x41 : Int), 0xD83D, 0xDE00, 0xD800].length) ∧
    (wchar4ToString ([0x41, 0xD83D, 0xDE00, 0xD800] ++ [0] ++ [7, 8])).isSome = true ∧
    (∀ r1 r2 : Int, decodeRune r1 r2 ≠ 0xFFFD → r2 ≠ 0) :=
  ⟨by decide, wchar_reads_within_terminator [0x41, 0xD83D, 0xDE00, 0xD800] [7, 8] (by decide)⟩

/-! ## Theorems: usage lookup -/

/-- C14: with the answers of the operating system as an input: when the open fails
with a permission error, `getDeviceUsageInfo` returns no error and the record has
`UsagePage = 0`, `Usage = 0` and every other field unchanged; when the open fails
with another error, or either descriptor query fails, that error is returned and the
record is unchanged; when all three succeed (and `descSize` lies within the
descriptor array), no error is returned and `UsagePage`, `Usage` are exactly what
`parseReportDescriptor` returns on the first `descSize` descriptor bytes, every other
field unchanged. -/
theorem getDeviceUsageInfo_outcomes (info : DeviceInfo) (os : HidrawAnswers) :
    (os.openErrno ≠ 0 → isPermission os.openErrno = true →
      getDeviceUsageInfo info os = some ({ info with UsagePage := 0, Usage := 0 }, none)) ∧
    (os.openErrno ≠ 0 → isPermission os.openErrno = false →
      getDeviceUsageInfo info os = some (info, some (OsError.openError os.openErrno))) ∧
    (os.openErrno = 0 → os.sizeErrno ≠ 0 →
      getDeviceUsageInfo info os = some (info, some (OsError.ioctlError os.sizeErrno))) ∧
    (os.openErrno = 0 → os.sizeErrno = 0 → os.descErrno ≠ 0 →
      getDeviceUsageInfo info os = some (info, some (OsError.ioctlError os.descErrno))) ∧
    (os.openErrno = 0 → os.sizeErrno = 0 → os.descErrno = 0 →
      0 ≤ os.descSize → os.descSize.toNat ≤ os.value.length →
      ∃ p u, parseReportDescriptor (os.value.take os.descSize.toNat) = some (p, u) ∧
        getDeviceUsageInfo info os =
          some ({ info with UsagePage := p, Usage := u }, none)) := by
  refine ⟨?_, ?_, ?_, ?_, ?_⟩
  · intro ho hp
    simp [getDeviceUsageInfo, ho, hp]
  · intro ho hp
    simp [getDeviceUsageInfo, ho, hp]
  · intro ho hs
    simp [getDeviceUsageInfo, ho, hs]
  · intro ho hs hd
    simp [getDeviceUsageInfo, ho, hs, hd]
  · intro ho hs hd h0 hlen
    refine ⟨(referenceFold (os.value.take os.descSize.toNat)).1,
      (referenceFold (os.value.take os.descSize.toNat)).2, parseReportDescriptor_eq _, ?_⟩
    have hg : goBytes os.value os.descSize = some (os.value.take os.descSize.toNat) := by
      simp [goBytes, h0, hlen]
    simp only [getDeviceUsageInfo, ho, hs, hd, hg, parseReportDescriptor_eq]
    simp

theorem getDeviceUsageInfo_outcomes_witness :
    (isPermission 13 = true ∧
      getDeviceUsageInfo sampleInfo
          { openErrno := 13, sizeErrno := 0, descSize := 0, descErrno := 0, value := [] } =
        some ({ sampleInfo with UsagePage := 0, Usage := 0 }, none)) ∧
    (isPermission 2 = false ∧
      getDeviceUsageInfo sampleInfo
          { openErrno := 2, sizeErrno := 0, descSize := 0, descErrno := 0, value := [] } =
        some (sampleInfo, some (OsError.openError 2))) ∧
    getDeviceUsageInfo sampleInfo
        { openErrno := 0, sizeErrno := 25, descSize := 0, descErrno := 0, value := [] } =
      some (sampleInfo, some (OsError.ioctlError 25)) ∧
    getDeviceUsageInfo sampleInfo
        { openErrno := 0, sizeErrno := 0, descSize := 4, descErrno := 22, value := [] } =
      some (sampleInfo, some (OsError.ioctlError 22)) ∧
    ∃ p u, parseReportDescriptor
        (([0x05, 0x01, 0x09, 0x02, 0x00, 0x00] : List (Fin 256)).take (4 : Int).toNat) =
          some (p, u) ∧
      getDeviceUsageInfo sampleInfo
          { openErrno := 0, sizeErrno := 0, descSize := 4, descErrno := 0,
            value := [0x05, 0x01, 0x09, 0x02, 0x00, 0x00] } =
        some ({ sampleInfo with UsagePage := p, Usage := u }, none) :=
  ⟨⟨by decide,
      (getDeviceUsageInfo_outcomes sampleInfo
        { openErrno := 13, sizeErrno := 0, descSize := 0, descErrno := 0, value := [] }).1
        (by decide) (by decide)⟩,
    ⟨by decide,
      (getDeviceUsageInfo_outcomes sampleInfo
        { openErrno := 2, sizeErrno := 0, descSize := 0, descErrno := 0, value := [] }).2.1
        (by decide) (by decide)⟩,
    (getDeviceUsageInfo_outcomes sampleInfo
      { openErrno := 0, sizeErrno := 25, descSize := 0, descErrno := 0, value := [] }).2.2.1
      (by decide) (by decide),
    (getDeviceUsageInfo_outcomes sampleInfo
      { openErrno := 0, sizeErrno := 0, descSize := 4, descErrno := 22, value := [] }).2.2.2.1
      (by decide) (by decide) (by decide),
    (getDeviceUsageInfo_outcomes sampleInfo
      { openErrno := 0, sizeErrno := 0, descSize := 4, descErrno := 0,
        value := [0x05, 0x01, 0x09, 0x02, 0x00, 0x00] }).2.2.2.2
      (by decide) (by decide) (by decide) (by decide) (by decide)⟩

end Hid
